import Mathlib

/-!
# mamarkt target brief: sitemap crawl, batching and export

A shallow embedding of `cmd/main.go` and proofs of its contract.

* In the crawl, the filter, the batching and the coordinator, Go strings are
  Lean `String`s: what is proved there does not depend on the bytes of a URL
  (on valid UTF-8 the byte-wise search of `strings.Contains` finds the
  occurrences the character-wise search finds).
* Go slices of strings are Lean lists of `String`; the empty list stands for
  the `nil` slice, the only empty slice this program ever builds.
* The export wire format alone is settled on Go's own values, strings as
  sequences of bytes and slices with `nil` apart from empty (namespace
  `Bytes`): there `json.Marshal` treats bytes that are not valid UTF-8 and
  empty slices in ways the two items above cannot show.
* The collaborators the program calls but does not define (the colly fetch,
  `json.Marshal`, the clock, the S3 session and `PutObject`) are the fields of
  a `World`; every effect the program performs on them is recorded in a trace
  of `Event`s.
* The goroutines of `handler` are a step relation: every statement that
  touches shared state is one step, and a schedule is the order in which the
  steps are taken.
-/

namespace Mamarkt

/-! ## Definitions

### Batcher and filter -/

/-- A Go `error` value, identified with its message. -/
abbrev Error := String

/-- The Go slice expression `xs[lo:hi]`, for `lo ≤ hi ≤ len(xs)`. -/
def slice {α : Type} (xs : List α) (lo hi : Nat) : List α :=
  (xs.drop lo).take (hi - lo)

/-- The loop of `splitBatches`: `i` is the loop variable, `batches` the slice
built so far. A slice of strings has far fewer than `2^63 - 25` elements, so
`i + 25` does not overflow Go's `int` and natural-number arithmetic is exact. -/
def splitBatchesLoop (collectedProductUrls : List String) (i : Nat)
    (batches : List (List String)) : List (List String) :=
  if i < collectedProductUrls.length then
    let end1 := i + 25
    let end2 :=
      if end1 > collectedProductUrls.length then collectedProductUrls.length else end1
    let batch := slice collectedProductUrls i end2
    splitBatchesLoop collectedProductUrls (i + 25) (batches ++ [batch])
  else
    batches
termination_by collectedProductUrls.length - i
decreasing_by omega

/-- The function `splitBatches` of `cmd/main.go`. -/
def splitBatches (collectedProductUrls : List String) : List (List String) :=
  splitBatchesLoop collectedProductUrls 0 []

/-- The sizes of the batches cut from `n` elements, as the contract words them:
full batches of 25, then the remainder when there is one. -/
def batchSizes (n : Nat) : List Nat :=
  List.replicate (n / 25) 25 ++ (if n % 25 = 0 then [] else [n % 25])

/-- Go `strings.HasPrefix` on the characters of the strings. -/
def startsWith : List Char → List Char → Bool
  | _, [] => true
  | [], _ :: _ => false
  | c :: s, d :: p => c == d && startsWith s p

/-- Search for `substr` at every position of `s`, left to right. -/
def containsFrom : List Char → List Char → Bool
  | [], substr => startsWith [] substr
  | c :: s, substr => startsWith (c :: s) substr || containsFrom s substr

/-- Go `strings.Contains(s, substr)`: `substr` occurs within `s`. -/
def stringsContains (s substr : String) : Bool :=
  containsFrom s.data substr.data

/-- The function `filterXMLs` of `cmd/main.go`: a loop over the input that
appends the matching elements to `filtered`. -/
def filterXMLs (collectedXMLs : List String) (pattern : String) : List String :=
  collectedXMLs.foldl
    (fun filtered xml => if stringsContains xml pattern then filtered ++ [xml] else filtered) []

/-! ### Types and configuration -/

/-- The type `Data` of `cmd/main.go`. -/
structure Data where
  Batches : List (List String)
deriving DecidableEq

/-- The type `Output` of `cmd/main.go`. -/
structure Output where
  ObjectKey : String
  BucketName : String
  BatchCount : Int
deriving DecidableEq

/-- The variable `bucketName` of `cmd/main.go`. -/
def bucketName : String := "mamarkt-bucket"

/-- The zero value of `Output`, what `var out Output` declares. -/
def zeroOutput : Output := ⟨"", "", 0⟩

/-! ### Package `time`: the clock reading and its rendering -/

/-- A Go `time.Time` as `Format` sees it: the calendar fields in the value's
location (`Date()`, `Clock()`, `Nanosecond()`) and the offset of that location
east of UTC, in seconds (`Zone()`). -/
structure Time where
  year : Int
  month : Nat
  day : Nat
  hour : Nat
  minute : Nat
  second : Nat
  nanosecond : Nat
  zoneOffset : Int
deriving DecidableEq

/-- The number of days of a month of the proleptic Gregorian calendar. -/
def daysIn (year : Int) (month : Nat) : Nat :=
  if month = 2 then
    (if year % 4 = 0 ∧ (year % 100 ≠ 0 ∨ year % 400 = 0) then 29 else 28)
  else if month = 4 ∨ month = 6 ∨ month = 9 ∨ month = 11 then 30
  else 31

/-- The field ranges of a normalised `time.Time`. -/
def Time.Valid (t : Time) : Prop :=
  1 ≤ t.month ∧ t.month ≤ 12 ∧ 1 ≤ t.day ∧ t.day ≤ daysIn t.year t.month ∧
  t.hour < 24 ∧ t.minute < 60 ∧ t.second < 60 ∧ t.nanosecond < 1000000000

instance (t : Time) : Decidable t.Valid := by
  unfold Time.Valid; infer_instance

/-- Days from 1970-01-01 to the given date of the proleptic Gregorian
calendar. -/
def daysFromCivil (year : Int) (month day : Nat) : Int :=
  let y : Int := if month ≤ 2 then year - 1 else year
  let era : Int := y / 400
  let yoe : Int := y - era * 400
  let mp : Int := if month > 2 then (month : Int) - 3 else (month : Int) + 9
  let doy : Int := (153 * mp + 2) / 5 + (day : Int) - 1
  let doe : Int := yoe * 365 + yoe / 4 - yoe / 100 + doy
  era * 146097 + doe - 719468

/-- Go `Time.Unix()`: seconds since 1970-01-01T00:00:00Z. -/
def Time.unix (t : Time) : Int :=
  daysFromCivil t.year t.month t.day * 86400
    + (t.hour : Int) * 3600 + (t.minute : Int) * 60 + (t.second : Int) - t.zoneOffset

/-- Go `Time.UnixNano()` without the 64-bit wrap-around. -/
def Time.unixNano (t : Time) : Int :=
  t.unix * 1000000000 + (t.nanosecond : Int)

/-- The decimal digit `'0' + d`. -/
def digitChar (d : Nat) : Char := Char.ofNat (48 + d % 10)

/-- The decimal digits of `u`, most significant first. -/
def decimal (u : Nat) : List Char :=
  if u < 10 then [digitChar u] else decimal (u / 10) ++ [digitChar (u % 10)]
termination_by u
decreasing_by omega

/-- Go `appendInt(b, x, width)` of package `time`: a minus sign for a negative
`x`, then the decimal digits of `|x|` padded with zeros to `width`. -/
def appendInt (x : Int) (width : Nat) : List Char :=
  let u : Nat := x.natAbs
  let sign : List Char := if x < 0 then ['-'] else []
  let n := (decimal u).length
  sign ++ List.replicate (width - n) '0' ++ decimal u

/-- Go `t.Format("2006-01-02_15-04-05")`. -/
def Time.Format (t : Time) : String :=
  String.mk (appendInt t.year 4 ++ ['-'] ++ appendInt t.month 2 ++ ['-'] ++ appendInt t.day 2
    ++ ['_'] ++ appendInt t.hour 2 ++ ['-'] ++ appendInt t.minute 2 ++ ['-']
    ++ appendInt t.second 2)

/-! ### Collaborators and effects -/

/-- An effect of the program on its collaborators. -/
inductive Event where
  /-- The call `c.Visit(url)` of a collector whose `OnXML` pattern is `pattern`. -/
  | visit (url pattern : String)
  /-- A line written by `log.Printf`. -/
  | log (msg : String)
  /-- The call `svc.PutObject` with this bucket, key and body. -/
  | putObject (bucket key body : String)
deriving DecidableEq

/-- The collaborators of one invocation. `visit n url pattern` is the outcome of
the colly visit made by the `n`-th call of `collectXMLs` (0 for the root index,
`i + 1` for the goroutine of the `i`-th filtered sitemap): the texts of the
matched elements in document order, or the error of `c.Visit`. -/
structure World where
  visit : Nat → String → String → Except Error (List String)
  marshal : Data → Except Error String
  now : Time
  newSession : Option Error
  putObject : String → String → String → Option Error

/-- The function `collectXMLs` of `cmd/main.go`, as the `call`-th call of it:
the `OnXML` callback appends every matched text to `collectedXMLs`, and an
error of `c.Visit` is returned with a `nil` slice. -/
def collectXMLs (W : World) (call : Nat) (url pattern : String) :
    Except Error (List String) :=
  match W.visit call url pattern with
  | .error err => .error err
  | .ok collectedXMLs => .ok collectedXMLs

/-- The function `uploadToS3` of `cmd/main.go`: the error it returns and the
effects it performs. -/
def uploadToS3 (W : World) (bucketName objectKey data : String) :
    Option Error × List Event :=
  match W.newSession with
  | some err => (some err, [])
  | none =>
    match W.putObject bucketName objectKey data with
    | some err => (some err, [Event.putObject bucketName objectKey data])
    | none => (none, [Event.putObject bucketName objectKey data])

/-- The object key `storeData` computes when the clock reads `t`. -/
def objectKeyAt (t : Time) : String :=
  let currentDateTime := t.Format
  "batches_" ++ currentDateTime ++ ".json"

/-- The function `storeData` of `cmd/main.go`: the pair it returns and the
effects it performs. -/
def storeData (W : World) (batches : List (List String)) :
    (String × Option Error) × List Event :=
  let dataToStore : Data := { Batches := batches }
  match W.marshal dataToStore with
  | .error err =>
    (("", some err), [Event.log ("Error marshaling combined batch data: " ++ err)])
  | .ok data =>
    let objectKey := objectKeyAt W.now
    match uploadToS3 W bucketName objectKey data with
    | (some err, effects) =>
      (("", some err), effects ++ [Event.log ("Error uploading data to S3: " ++ err)])
    | (none, effects) => ((objectKey, none), effects)

/-! ### The goroutines of `handler` -/

/-- The control point of one goroutine of `handler`. -/
inductive Task where
  /-- Not launched yet. -/
  | idle
  /-- Launched; before the call of `collectXMLs`. -/
  | ready
  /-- The call `collectXMLs` returned an error; before `log.Printf`. -/
  | failed (err : Error)
  /-- The call `collectXMLs` returned `batch`; before `mu.Lock()`. -/
  | fetched (batch : List String)
  /-- Inside the critical section; before `append` reads `collectedProductUrls`. -/
  | locked (batch : List String)
  /-- The call `append` has read `old`; before its result is assigned. -/
  | read (batch old : List String)
  /-- After the assignment; before `mu.Unlock()`. -/
  | appended
  /-- Before `wg.Done()`. -/
  | finishing
  /-- After `wg.Done()`. -/
  | done
deriving DecidableEq

/-- The shared state of `handler` while its goroutines run. -/
structure State where
  /-- The number of iterations of the launching loop already made. -/
  launched : Nat
  /-- The control point of each goroutine, by index in `filteredXMLs`. -/
  task : Nat → Task
  collectedProductUrls : List String
  /-- Whether `mu` is locked. -/
  mu : Bool
  /-- The counter of `wg`. -/
  wg : Nat
  trace : List Event

/-- One step of the schedule. -/
inductive Action where
  /-- The main goroutine runs one iteration of the loop: `wg.Add(1)` and `go`. -/
  | launch
  /-- Goroutine `i` runs its next statement. -/
  | step (i : Nat)
deriving DecidableEq

/-- The state when the loop over `filteredXMLs` starts. -/
def State.init (trace : List Event) : State where
  launched := 0
  task := fun _ => Task.idle
  collectedProductUrls := []
  mu := false
  wg := 0
  trace := trace

/-- The effect of one action, or `none` when the action cannot run in this
state (the loop is over, the goroutine does not exist or has returned, or it
waits for `mu`). Goroutine `i` exists only for `i < len(filteredXMLs)`, so its
argument `v` is `filteredXMLs[i]`. The call `append` is two steps, the read of
the shared slice and the assignment of the result. -/
def exec (W : World) (filteredXMLs : List String) (s : State) : Action → Option State
  | Action.launch =>
    if s.launched < filteredXMLs.length then
      some { s with
        launched := s.launched + 1
        task := Function.update s.task s.launched Task.ready
        wg := s.wg + 1 }
    else none
  | Action.step i =>
    let v := filteredXMLs.getD i ""
    match s.task i with
    | Task.idle => none
    | Task.ready =>
      match collectXMLs W (i + 1) v "//url/loc" with
      | .error err =>
        some { s with
          task := Function.update s.task i (Task.failed err)
          trace := s.trace ++ [Event.visit v "//url/loc"] }
      | .ok collectedProductUrlBatch =>
        some { s with
          task := Function.update s.task i (Task.fetched collectedProductUrlBatch)
          trace := s.trace ++ [Event.visit v "//url/loc"] }
    | Task.failed err =>
      some { s with
        task := Function.update s.task i Task.finishing
        trace := s.trace ++
          [Event.log ("Error collecting product URLs for " ++ v ++ ": " ++ err)] }
    | Task.fetched batch =>
      if s.mu then none
      else some { s with task := Function.update s.task i (Task.locked batch), mu := true }
    | Task.locked batch =>
      some { s with task := Function.update s.task i (Task.read batch s.collectedProductUrls) }
    | Task.read batch old =>
      some { s with
        task := Function.update s.task i Task.appended
        collectedProductUrls := old ++ batch }
    | Task.appended =>
      some { s with task := Function.update s.task i Task.finishing, mu := false }
    | Task.finishing =>
      some { s with task := Function.update s.task i Task.done, wg := s.wg - 1 }
    | Task.done => none

/-- Run a schedule from a state. -/
def run (W : World) (filteredXMLs : List String) : State → List Action → Option State
  | s, [] => some s
  | s, a :: rest =>
    match exec W filteredXMLs s a with
    | none => none
    | some s1 => run W filteredXMLs s1 rest

/-- What one invocation of `handler` returns and does. -/
structure Result where
  out : Output
  err : Option Error
  trace : List Event
deriving DecidableEq

/-- The statements of `handler` after `wg.Wait()` has returned. -/
def exportStage (W : World) (collectedProductUrls : List String) (trace : List Event) :
    Result :=
  let batches := splitBatches collectedProductUrls
  match storeData W batches with
  | ((_, some err), effects) => { out := zeroOutput, err := some err, trace := trace ++ effects }
  | ((objectKey, none), effects) =>
    { out := { ObjectKey := objectKey, BucketName := bucketName,
               BatchCount := (batches.length : Int) }
      err := none
      trace := trace ++ effects }

/-- The state in which `wg.Wait()` returns: the loop is over and the counter
is zero. -/
def State.joined (filteredXMLs : List String) (s : State) : Bool :=
  s.launched == filteredXMLs.length && s.wg == 0

/-- The root sitemap index `handler` fetches. -/
def rootURL : String := "https://www.migros.com.tr/hermes/api/sitemaps/sitemap.xml"

/-- The goroutines of `handler` run along `sched` from the launching loop to
the return of `wg.Wait()`; `none` when `sched` is not a complete run. -/
def crawl (W : World) (filteredXMLs : List String) (trace : List Event)
    (sched : List Action) : Option State :=
  match run W filteredXMLs (State.init trace) sched with
  | none => none
  | some s => if s.joined filteredXMLs then some s else none

/-- The function `handler` of `cmd/main.go` along the schedule `sched` of its
goroutines; `none` when `sched` is not a complete run of them. -/
def handler (W : World) (sched : List Action) : Option Result :=
  match collectXMLs W 0 rootURL "//sitemap/loc" with
  | .error err =>
    some { out := zeroOutput, err := some err, trace := [Event.visit rootURL "//sitemap/loc"] }
  | .ok allXMLs =>
    let filteredXMLs := filterXMLs allXMLs "product"
    match crawl W filteredXMLs [Event.visit rootURL "//sitemap/loc"] sched with
    | none => none
    | some s => some (exportStage W s.collectedProductUrls s.trace)

/-! ### Invariant of the goroutines -/

/-- The outcome of the fetch made by the goroutine of the `i`-th filtered
sitemap. -/
def childFetch (W : World) (filteredXMLs : List String) (i : Nat) :
    Except Error (List String) :=
  collectXMLs W (i + 1) (filteredXMLs.getD i "") "//url/loc"

/-- What the `i`-th goroutine has to merge: the list its fetch returned, and
nothing when its fetch failed. -/
def contribution (W : World) (filteredXMLs : List String) (i : Nat) : List String :=
  match childFetch W filteredXMLs i with
  | .ok batch => batch
  | .error _ => []

/-- The goroutine is inside the critical section of `mu`. -/
def Task.holdsLock : Task → Bool
  | Task.locked _ => true
  | Task.read _ _ => true
  | Task.appended => true
  | _ => false

/-- The goroutine is past its merge: it has appended its list, or logged its
failure. -/
def Task.merged : Task → Bool
  | Task.appended => true
  | Task.finishing => true
  | Task.done => true
  | _ => false

/-- Whether the goroutine still counts in `wg`: 1 until `wg.Done()`. -/
def Task.pending : Task → Nat
  | Task.done => 0
  | _ => 1

/-- The data a goroutine holds at a control point is what its fetch returned. -/
def Task.Agrees (W : World) (filteredXMLs : List String) (i : Nat) : Task → Prop
  | Task.failed err => childFetch W filteredXMLs i = .error err
  | Task.fetched batch => childFetch W filteredXMLs i = .ok batch
  | Task.locked batch => childFetch W filteredXMLs i = .ok batch
  | Task.read batch _ => childFetch W filteredXMLs i = .ok batch
  | _ => True

/-- An effect a goroutine of `handler` can perform: a child fetch or a log
line. -/
def Event.isChildEffect : Event → Bool
  | Event.visit _ pattern => pattern == "//url/loc"
  | Event.log _ => true
  | Event.putObject _ _ _ => false

/-- The invariant of the goroutines of `handler`. -/
structure Inv (W : World) (filteredXMLs : List String) (trace0 : List Event) (s : State) :
    Prop where
  launched_le : s.launched ≤ filteredXMLs.length
  idle_iff : ∀ i, s.task i = Task.idle ↔ s.launched ≤ i
  agrees : ∀ i, (s.task i).Agrees W filteredXMLs i
  free : s.mu = false → ∀ i, (s.task i).holdsLock = false
  holder : ∀ i j, (s.task i).holdsLock = true → (s.task j).holdsLock = true → i = j
  snapshot : ∀ i batch old, s.task i = Task.read batch old → old = s.collectedProductUrls
  counter : s.wg = ∑ i in Finset.range s.launched, (s.task i).pending
  merged : ∃ order : List Nat, order.Nodup ∧ (∀ i, i ∈ order ↔ (s.task i).merged = true) ∧
    s.collectedProductUrls = order.flatMap (contribution W filteredXMLs)
  effects : ∃ effects : List Event, s.trace = trace0 ++ effects ∧
    ∀ e ∈ effects, e.isChildEffect = true


/-- The event is a write to the storage sink. -/
def Event.isPut : Event → Bool
  | Event.putObject _ _ _ => true
  | _ => false

/-- The actions of goroutine `i` when it runs alone from launch to return: six
statements when its fetch succeeds, three when it fails. -/
def taskSteps (W : World) (filteredXMLs : List String) (i : Nat) : List Action :=
  match childFetch W filteredXMLs i with
  | .ok _ => List.replicate 6 (Action.step i)
  | .error _ => List.replicate 3 (Action.step i)

/-- The schedule that launches goroutines `k`, `k + 1`, ..., `k + m - 1` one
after the other, each running to its end before the next is launched. -/
def scheduleFrom (W : World) (filteredXMLs : List String) (k : Nat) : Nat → List Action
  | 0 => []
  | m + 1 =>
    (Action.launch :: taskSteps W filteredXMLs k) ++ scheduleFrom W filteredXMLs (k + 1) m

/-- The schedule in which the goroutines run one after the other. -/
def sequentialSchedule (W : World) (filteredXMLs : List String) : List Action :=
  scheduleFrom W filteredXMLs 0 filteredXMLs.length


/-! ### Sample inputs -/

/-- A sample world: the root index lists three sitemaps, two of them product
sitemaps; the first product sitemap yields two URLs and the fetch of the second
fails; serialization and storage succeed. -/
def sampleWorld : World where
  visit := fun call _ _ =>
    if call = 0 then .ok ["s/product/1.xml", "s/category/1.xml", "s/product/2.xml"]
    else if call = 1 then .ok ["p/1", "p/2"]
    else .error "connection reset"
  marshal := fun _ => .ok "\x7b\x7d"
  now :=
    { year := 2024, month := 1, day := 2, hour := 3, minute := 4, second := 5,
      nanosecond := 0, zoneOffset := 0 }
  newSession := none
  putObject := fun _ _ _ => none

/-- A complete schedule of the two goroutines of `sampleWorld`, interleaved. -/
def sampleSchedule : List Action :=
  [Action.launch, Action.launch, Action.step 1, Action.step 0, Action.step 0, Action.step 1,
   Action.step 0, Action.step 0, Action.step 0, Action.step 1, Action.step 0]

/-- The world `sampleWorld` with a root fetch that fails. -/
def rootFailureWorld : World :=
  { sampleWorld with visit := fun _ _ _ => .error "timeout" }

/-- The world `sampleWorld` with a storage sink that rejects the write. -/
def putFailureWorld : World :=
  { sampleWorld with putObject := fun _ _ _ => some "access denied" }

/-- The world `sampleWorld` with a serializer that fails. -/
def marshalFailureWorld : World :=
  { sampleWorld with marshal := fun _ => .error "unsupported value" }


/-- The world `sampleWorld` with a second child fetch that succeeds too. -/
def allOkWorld : World :=
  { sampleWorld with
    visit := fun call _ _ =>
      if call = 0 then .ok ["s/product/1.xml", "s/product/2.xml"]
      else if call = 1 then .ok ["p/1", "p/2"]
      else .ok ["p/2", "p/3", "p/4"] }

/-- The lists the two children of `allOkWorld` return. -/
def allOkBatches (i : Nat) : List String :=
  if i = 0 then ["p/1", "p/2"] else ["p/2", "p/3", "p/4"]


/-- The value of a decimal digit character: `c - '0'`. -/
def digitValue (c : Char) : Nat := c.toNat - 48

/-- The number a string of decimal digits denotes. -/
def parseDecimal (cs : List Char) : Nat :=
  cs.foldl (fun acc c => 10 * acc + digitValue c) 0

/-- An export time in a zone that is two hours ahead of UTC: 02:30:00 on
2024-10-27, before the clock is set back. -/
def beforeSetBack : Time :=
  { year := 2024, month := 10, day := 27, hour := 2, minute := 30, second := 0,
    nanosecond := 0, zoneOffset := 7200 }

/-- The export time one hour after `beforeSetBack`: 02:30:00 again, the zone
now one hour ahead of UTC. -/
def afterSetBack : Time :=
  { beforeSetBack with zoneOffset := 3600 }


/-! ### Packages `unicode/utf8` and `encoding/json` on Go's own values

The export wire format is settled on the strings as Go holds them, sequences
of bytes, and on slices with `nil` apart from empty. The encoder follows
`json.Marshal` (HTML-safe escapes, the replacement rune for bytes that are not
valid UTF-8, `null` for a `nil` slice); the decoder follows `json.Unmarshal` on
the compact documents of that encoder. -/

/-- A Go string as Go holds it: a sequence of bytes, each a natural number
below 256. -/
abbrev GoString := List Nat

/-- A Go slice: `nil`, or a sequence of elements that may be empty. -/
inductive Slice (α : Type) where
  | null
  | of (elems : List α)
deriving DecidableEq

/-- The elements of a slice, none for `nil`. -/
def Slice.elems {α : Type} : Slice α → List α
  | Slice.null => []
  | Slice.of xs => xs

/-- The bytes of an ASCII literal. -/
def ascii (s : String) : GoString := s.data.map Char.toNat

/-- The least second byte Go's `acceptRanges` allows after the first byte
`b0`: it rules out encodings that are longer than needed. -/
def secondLo (b0 : Nat) : Nat :=
  if b0 = 0xE0 then 0xA0 else if b0 = 0xF0 then 0x90 else 0x80

/-- The greatest second byte Go's `acceptRanges` allows after the first byte
`b0`: it rules out surrogates and runes above `0x10FFFF`. -/
def secondHi (b0 : Nat) : Nat :=
  if b0 = 0xED then 0x9F else if b0 = 0xF4 then 0x8F else 0xBF

/-- Go `utf8.DecodeRuneInString`: the rune at the front of the string and its
width in bytes; an encoding that is not valid UTF-8 gives `(0xFFFD, 1)`, the
empty string `(0xFFFD, 0)`. A mask `x & (2^k - 1)` is `x % 2^k`, a shift
`x << k` is `x * 2^k`, and `|` adds fields that share no bit. -/
def decodeRune : GoString → Nat × Nat
  | [] => (0xFFFD, 0)
  | b0 :: rest =>
    if b0 < 0x80 then (b0, 1)
    else if 0xC2 ≤ b0 ∧ b0 ≤ 0xDF then
      match rest with
      | b1 :: _ =>
        if 0x80 ≤ b1 ∧ b1 ≤ 0xBF then (b0 % 32 * 64 + b1 % 64, 2) else (0xFFFD, 1)
      | [] => (0xFFFD, 1)
    else if 0xE0 ≤ b0 ∧ b0 ≤ 0xEF then
      match rest with
      | b1 :: b2 :: _ =>
        if secondLo b0 ≤ b1 ∧ b1 ≤ secondHi b0 ∧
            0x80 ≤ b2 ∧ b2 ≤ 0xBF then
          (b0 % 16 * 4096 + b1 % 64 * 64 + b2 % 64, 3)
        else (0xFFFD, 1)
      | _ => (0xFFFD, 1)
    else if 0xF0 ≤ b0 ∧ b0 ≤ 0xF4 then
      match rest with
      | b1 :: b2 :: b3 :: _ =>
        if secondLo b0 ≤ b1 ∧ b1 ≤ secondHi b0 ∧
            0x80 ≤ b2 ∧ b2 ≤ 0xBF ∧ 0x80 ≤ b3 ∧ b3 ≤ 0xBF then
          (b0 % 8 * 262144 + b1 % 64 * 4096 + b2 % 64 * 64 + b3 % 64, 4)
        else (0xFFFD, 1)
      | _ => (0xFFFD, 1)
    else (0xFFFD, 1)

/-- Go `utf8.AppendRune`: the UTF-8 encoding of a rune; a surrogate or a value
above `0x10FFFF` is encoded as `0xFFFD`. -/
def encodeRune (r : Nat) : GoString :=
  if r < 0x80 then [r]
  else if r < 0x800 then [0xC0 + r / 64, 0x80 + r % 64]
  else if (0xD800 ≤ r ∧ r < 0xE000) ∨ 0x10FFFF < r then [0xEF, 0xBF, 0xBD]
  else if r < 0x10000 then [0xE0 + r / 4096, 0x80 + r / 64 % 64, 0x80 + r % 64]
  else [0xF0 + r / 262144, 0x80 + r / 4096 % 64, 0x80 + r / 64 % 64, 0x80 + r % 64]

/-- Go `utf8.ValidString`: every rune of the string decodes without error. -/
def validUTF8 : GoString → Bool
  | [] => true
  | b :: rest =>
    !((decodeRune (b :: rest)).1 == 0xFFFD && (decodeRune (b :: rest)).2 == 1)
      && validUTF8 (rest.drop ((decodeRune (b :: rest)).2 - 1))
termination_by s => s.length
decreasing_by
  simp_wf
  omega

/-- The byte of the lower-case hexadecimal digit of `n < 16`. -/
def hexDigit (n : Nat) : Nat :=
  if n < 10 then 48 + n else 87 + n

/-- How `appendString` of `encoding/json` writes an ASCII byte: the byte itself
when it is HTML-safe; otherwise a backslash before `"` (34) and `\` (92), the
short escapes of backspace, form feed, line feed, carriage return and tab, and
`\u00XX` for the other control bytes and for `<` (60), `>` (62), `&` (38). -/
def escapeByte (b : Nat) : GoString :=
  if b = 34 ∨ b = 92 then [92, b]
  else if b = 8 then ascii "\\b"
  else if b = 12 then ascii "\\f"
  else if b = 10 then ascii "\\n"
  else if b = 13 then ascii "\\r"
  else if b = 9 then ascii "\\t"
  else if b < 32 ∨ b = 60 ∨ b = 62 ∨ b = 38 then
    ascii "\\u00" ++ [hexDigit (b / 16), hexDigit (b % 16)]
  else [b]

/-- Go `appendString` of `encoding/json` with `escapeHTML` set, between the
quotes: ASCII bytes are escaped by `escapeByte`, a byte that starts no valid
UTF-8 encoding is written `\ufffd`, the separators `U+2028` and `U+2029` are
written as `\u` escapes, and every other rune is copied. -/
def appendString : GoString → GoString
  | [] => []
  | b :: rest =>
    if b < 0x80 then escapeByte b ++ appendString rest
    else if (decodeRune (b :: rest)).1 = 0xFFFD ∧ (decodeRune (b :: rest)).2 = 1 then
      ascii "\\ufffd" ++ appendString rest
    else if (decodeRune (b :: rest)).1 = 0x2028 ∨ (decodeRune (b :: rest)).1 = 0x2029 then
      ascii "\\u202" ++ [hexDigit ((decodeRune (b :: rest)).1 % 16)]
        ++ appendString (rest.drop ((decodeRune (b :: rest)).2 - 1))
    else
      (b :: rest).take (decodeRune (b :: rest)).2
        ++ appendString (rest.drop ((decodeRune (b :: rest)).2 - 1))
termination_by s => s.length
decreasing_by
  all_goals simp_wf
  all_goals omega

/-- A JSON string literal: the escaped bytes between quotes. -/
def encodeString (s : GoString) : GoString :=
  34 :: appendString s ++ [34]

/-- The elements of a JSON array, separated by commas (44). -/
def encodeElements {α : Type} (encode : α → GoString) : List α → GoString
  | [] => []
  | [a] => encode a
  | a :: b :: rest => encode a ++ 44 :: encodeElements encode (b :: rest)

/-- A Go slice as JSON: `null` for the `nil` slice, an array otherwise, `[]`
for a slice that is empty and not `nil`. -/
def encodeSlice {α : Type} (encode : α → GoString) : Slice α → GoString
  | Slice.null => ascii "null"
  | Slice.of xs => 91 :: encodeElements encode xs ++ [93]

/-- The value of the byte of a hexadecimal digit: `0`-`9`, `a`-`f`, `A`-`F`. -/
def hexValue (c : Nat) : Option Nat :=
  if 48 ≤ c ∧ c ≤ 57 then some (c - 48)
  else if 97 ≤ c ∧ c ≤ 102 then some (c - 87)
  else if 65 ≤ c ∧ c ≤ 70 then some (c - 55)
  else none

/-- Go `getu4`: the value of the four hexadecimal digits of a `\u` escape. -/
def hex4 (a b c d : Nat) : Option Nat :=
  match hexValue a, hexValue b, hexValue c, hexValue d with
  | some x, some y, some z, some w => some (((x * 16 + y) * 16 + z) * 16 + w)
  | _, _, _, _ => none

/-- The byte a one-letter escape stands for: `\"`, `\\`, `\/`, `\b`, `\f`,
`\n`, `\r`, `\t`. -/
def unescape (c : Nat) : Option Nat :=
  if c = 34 then some 34
  else if c = 92 then some 92
  else if c = 47 then some 47
  else if c = 98 then some 8
  else if c = 102 then some 12
  else if c = 110 then some 10
  else if c = 114 then some 13
  else if c = 116 then some 9
  else none

/-- The rune of a `\u` escape of value `n`, and what follows it: a high
surrogate followed by the escape of a low surrogate is the rune of the pair, a
lone surrogate is the replacement rune `0xFFFD`. -/
def unicodeEscape (n : Nat) (rest : GoString) : Nat × GoString :=
  if 0xD800 ≤ n ∧ n < 0xE000 then
    match rest with
    | 92 :: 117 :: a :: b :: c :: d :: rest1 =>
      match hex4 a b c d with
      | some m =>
        if n < 0xDC00 ∧ 0xDC00 ≤ m ∧ m < 0xE000 then
          ((n - 0xD800) * 1024 + (m - 0xDC00) + 0x10000, rest1)
        else (0xFFFD, rest)
      | none => (0xFFFD, rest)
    | _ => (0xFFFD, rest)
  else (n, rest)

/-- Go `unquote` of `encoding/json`, after the opening quote: the bytes of the
string up to the closing quote (34), and what follows it. A backslash (92)
starts an escape, a control byte is an error, an ASCII byte is copied, and
any other rune is decoded and encoded again, which turns invalid UTF-8 into
`0xFFFD`. -/
def unquoteFrom : GoString → Option (GoString × GoString)
  | [] => none
  | c :: cs =>
    if c = 34 then some ([], cs)
    else if c = 92 then
      match cs with
      | [] => none
      | e :: rest =>
        if e = 117 then
          match rest with
          | a :: b :: c1 :: d :: rest2 =>
            match hex4 a b c1 d with
            | none => none
            | some n =>
              match unquoteFrom (unicodeEscape n rest2).2 with
              | none => none
              | some (s, rest1) => some (encodeRune (unicodeEscape n rest2).1 ++ s, rest1)
          | _ => none
        else
          match unescape e with
          | none => none
          | some x =>
            match unquoteFrom rest with
            | none => none
            | some (s, rest1) => some (x :: s, rest1)
    else if c < 32 then none
    else if c < 0x80 then
      match unquoteFrom cs with
      | none => none
      | some (s, rest1) => some (c :: s, rest1)
    else
      match unquoteFrom (cs.drop ((decodeRune (c :: cs)).2 - 1)) with
      | none => none
      | some (s, rest1) => some (encodeRune (decodeRune (c :: cs)).1 ++ s, rest1)
termination_by cs => cs.length
decreasing_by
  all_goals simp_wf
  · have hle : (unicodeEscape n rest2).2.length ≤ rest2.length := by
      unfold unicodeEscape
      repeat' split
      all_goals first | (simp; done) | (simp; omega)
    omega
  all_goals omega

/-- A JSON string literal decoded into a Go string, and what follows it. -/
def decodeString : GoString → Option (GoString × GoString)
  | [] => none
  | c :: body => if c = 34 then unquoteFrom body else none

/-- The elements of a JSON array after the opening bracket, up to the closing
bracket (93), and what follows it; `fuel` bounds the number of elements. -/
def decodeElements {α : Type} (decode : GoString → Option (α × GoString)) :
    Nat → GoString → Option (List α × GoString)
  | 0, _ => none
  | fuel + 1, cs =>
    match decode cs with
    | some (a, 44 :: rest) =>
      match decodeElements decode fuel rest with
      | some (as, rest1) => some (a :: as, rest1)
      | none => none
    | some (a, 93 :: rest) => some ([a], rest)
    | _ => none

/-- A JSON value decoded into a Go slice, and what follows it: `null` is the
`nil` slice, `[]` a slice that is empty and not `nil`. -/
def decodeSlice {α : Type} (decode : GoString → Option (α × GoString))
    (cs : GoString) : Option (Slice α × GoString) :=
  match cs with
  | 110 :: 117 :: 108 :: 108 :: rest => some (Slice.null, rest)
  | 91 :: 93 :: rest => some (Slice.of [], rest)
  | 91 :: rest =>
    match decodeElements decode rest.length rest with
    | some (xs, rest1) => some (Slice.of xs, rest1)
    | none => none
  | _ => none

/-- Remove a literal from the front of the input. -/
def stripLiteral : GoString → GoString → Option GoString
  | [], cs => some cs
  | _ :: _, [] => none
  | l :: ls, c :: cs => if l = c then stripLiteral ls cs else none

namespace Bytes

/-- The type `Data` of `cmd/main.go` on Go's own values: the strings as bytes,
the slices with `nil` apart from empty. -/
structure Data where
  Batches : Slice (Slice GoString)
deriving DecidableEq

/-- An effect of `storeData`: a line written by `log.Printf`, or the call
`svc.PutObject` with this bucket, key and body. -/
inductive Event where
  | log (msg : String)
  | putObject (bucket key : String) (body : GoString)
deriving DecidableEq

/-- The collaborators of `storeData`: the clock, the outcome of
`session.NewSession` and the outcome of `svc.PutObject`. -/
structure World where
  now : Time
  newSession : Option Error
  putObject : String → String → GoString → Option Error

end Bytes

/-- Go `json.Marshal` on a `Data` value: the object with the one member
`batches`; it returns no error on this type. -/
def jsonMarshal (d : Bytes.Data) : Except Error GoString :=
  .ok (ascii "\x7b\"batches\":" ++ encodeSlice (encodeSlice encodeString) d.Batches
    ++ ascii "\x7d")

/-- Go `json.Unmarshal` into a fresh `Data` value, on the compact documents
`json.Marshal` writes for that type: the object with the one member
`batches`. -/
def jsonUnmarshal (data : GoString) : Option Bytes.Data :=
  match stripLiteral (ascii "\x7b\"batches\":") data with
  | none => none
  | some rest =>
    match decodeSlice (decodeSlice decodeString) rest with
    | some (batches, [125]) => some { Batches := batches }
    | _ => none

namespace Bytes

/-- The function `uploadToS3` of `cmd/main.go`, the body as bytes: the error it
returns and the effects it performs. -/
def uploadToS3 (W : World) (bucketName objectKey : String) (data : GoString) :
    Option Error × List Event :=
  match W.newSession with
  | some err => (some err, [])
  | none =>
    match W.putObject bucketName objectKey data with
    | some err => (some err, [Event.putObject bucketName objectKey data])
    | none => (none, [Event.putObject bucketName objectKey data])

/-- The function `storeData` of `cmd/main.go` on Go's own values, with
`json.Marshal` itself for the serializer: the pair it returns and the effects
it performs. -/
def storeData (W : World) (batches : Slice (Slice GoString)) :
    (String × Option Error) × List Event :=
  let dataToStore : Data := { Batches := batches }
  match jsonMarshal dataToStore with
  | .error err =>
    (("", some err), [Event.log ("Error marshaling combined batch data: " ++ err)])
  | .ok data =>
    let objectKey := objectKeyAt W.now
    match uploadToS3 W Mamarkt.bucketName objectKey data with
    | (some err, effects) =>
      (("", some err), effects ++ [Event.log ("Error uploading data to S3: " ++ err)])
    | (none, effects) => ((objectKey, none), effects)

/-- A world whose clock is the one of `sampleWorld` and whose storage sink
accepts every write. -/
def sampleWorld : World where
  now := Mamarkt.sampleWorld.now
  newSession := none
  putObject := fun _ _ _ => none

end Bytes

/-- Every URL of the batch sequence is valid UTF-8. -/
def allValidUTF8 (bs : Slice (Slice GoString)) : Prop :=
  ∀ batch ∈ bs.elems, ∀ url ∈ batch.elems, validUTF8 url = true

/-- One batch holding the URL `a\xffb`, whose middle byte starts no UTF-8
encoding. -/
def invalidBatches : Slice (Slice GoString) :=
  Slice.of [Slice.of [[97, 0xFF, 98]]]

/-- Two batches of URLs that are valid UTF-8: `p/1?a=1&b=2` and `p/` followed by a two-byte rune
(the last rune as the bytes `C3 A9`), then an empty batch that is not `nil`, then
the URL `<3>`. -/
def validBatches : Slice (Slice GoString) :=
  Slice.of [Slice.of [ascii "p/1?a=1&b=2", [112, 47, 0xC3, 0xA9]], Slice.of [],
    Slice.of [ascii "<3>"]]

/-! ## Theorems -/

/-! ### Batcher: `splitBatches` -/

theorem slice_step (xs : List String) (i : Nat) :
    slice xs i (if i + 25 > xs.length then xs.length else i + 25) = (xs.drop i).take 25 := by
  unfold slice
  split
  · rw [List.take_of_length_le (by simp), List.take_of_length_le (by simp; omega)]
  · congr 1; omega

theorem splitBatchesLoop_flatten (xs : List String) (i : Nat) (batches : List (List String)) :
    (splitBatchesLoop xs i batches).flatten = batches.flatten ++ xs.drop i := by
  induction i, batches using splitBatchesLoop.induct xs with
  | case1 i batches h end1 end2 batch ih =>
    rw [splitBatchesLoop, if_pos h]
    simp only [batch, end2, end1, dite_eq_ite] at ih
    rw [ih, slice_step xs i]
    simp only [List.flatten_append, List.flatten_cons, List.flatten_nil, List.append_nil,
      List.append_assoc]
    congr 1
    rw [← List.drop_drop, List.take_append_drop]
  | case2 i batches h =>
    rw [splitBatchesLoop, if_neg h, List.drop_of_length_le (by omega)]
    simp

theorem batchSizes_step (n : Nat) (h : 0 < n) :
    batchSizes n = min 25 n :: batchSizes (n - 25) := by
  unfold batchSizes
  by_cases h25 : 25 ≤ n
  · have h1 : n / 25 = (n - 25) / 25 + 1 := by omega
    have h2 : n % 25 = (n - 25) % 25 := by omega
    rw [h1, h2, List.replicate_succ]
    simp [Nat.min_eq_left h25]
  · have h1 : n / 25 = 0 := by omega
    have h2 : n % 25 = n := by omega
    have h3 : n - 25 = 0 := by omega
    have h4 : min 25 n = n := by omega
    rw [h1, h2, h3, h4]
    simp; omega

theorem splitBatchesLoop_sizes (xs : List String) (i : Nat) (batches : List (List String)) :
    (splitBatchesLoop xs i batches).map List.length
      = batches.map List.length ++ batchSizes (xs.length - i) := by
  induction i, batches using splitBatchesLoop.induct xs with
  | case1 i batches h end1 end2 batch ih =>
    rw [splitBatchesLoop, if_pos h]
    simp only [batch, end2, end1, dite_eq_ite] at ih
    rw [ih, slice_step xs i, batchSizes_step (xs.length - i) (by omega)]
    simp only [List.map_append, List.map_cons, List.map_nil, List.append_assoc, List.length_take,
      List.length_drop, List.singleton_append]
    congr 3
  | case2 i batches h =>
    rw [splitBatchesLoop, if_neg h]
    have : xs.length - i = 0 := by omega
    rw [this]
    simp [batchSizes]

theorem splitBatches_sizes (xs : List String) :
    (splitBatches xs).map List.length = batchSizes xs.length := by
  simpa [splitBatches] using splitBatchesLoop_sizes xs 0 []

theorem batchSizes_length (n : Nat) : (batchSizes n).length = (n + 24) / 25 := by
  unfold batchSizes
  split <;> simp <;> omega

theorem splitBatches_length (xs : List String) :
    (splitBatches xs).length = (xs.length + 24) / 25 := by
  rw [← batchSizes_length, ← splitBatches_sizes, List.length_map]

/-- C1: concatenating the batches of `splitBatches xs` in order gives back
exactly `xs`. -/
theorem splitBatches_concat (xs : List String) : (splitBatches xs).flatten = xs := by
  simpa [splitBatches] using splitBatchesLoop_flatten xs 0 []


theorem batchSizes_inner (n j m : Nat) (hj : j + 1 < (batchSizes n).length)
    (hm : (batchSizes n)[j]? = some m) : m = 25 := by
  rw [batchSizes_length] at hj
  unfold batchSizes at hm
  have hlt : j < n / 25 := by omega
  rw [List.getElem?_append_left (by simpa using hlt)] at hm
  simp [List.getElem?_replicate, hlt] at hm
  exact hm.symm

theorem batchSizes_last (n m : Nat) (hm : (batchSizes n).getLast? = some m) :
    m = if n % 25 ≠ 0 then n % 25 else 25 := by
  unfold batchSizes at hm
  by_cases h : n % 25 = 0
  · simp only [h, if_true, List.append_nil] at hm
    simp only [h, ne_eq, not_true_eq_false, if_false]
    have := List.mem_of_mem_getLast? hm
    exact (List.mem_replicate.mp this).2
  · simp only [h, if_false] at hm
    simp only [ne_eq, h, not_false_eq_true, if_true]
    simpa using hm.symm

theorem batchSizes_pos (n m : Nat) (hm : m ∈ batchSizes n) : 0 < m := by
  unfold batchSizes at hm
  rcases List.mem_append.mp hm with h | h
  · rw [(List.mem_replicate.mp h).2]; omega
  · split at h
    · simp at h
    · simp at h; omega

/-- C2: `splitBatches` returns `ceil(N/25)` batches; every batch but the last
has 25 elements, the last has `N mod 25` elements when that is nonzero and 25
otherwise; no batch is empty; `N = 0` gives no batch, `N = 25` one batch of 25
and `N = 26` batches of sizes 25 and 1. -/
theorem splitBatches_shape (xs : List String) :
    (splitBatches xs).length = (xs.length + 24) / 25 ∧
    (∀ j b, j + 1 < (splitBatches xs).length → (splitBatches xs)[j]? = some b →
      b.length = 25) ∧
    (∀ b, (splitBatches xs).getLast? = some b →
      b.length = if xs.length % 25 ≠ 0 then xs.length % 25 else 25) ∧
    (∀ b ∈ splitBatches xs, b ≠ []) ∧
    (xs.length = 0 → splitBatches xs = []) ∧
    (xs.length = 25 → (splitBatches xs).map List.length = [25]) ∧
    (xs.length = 26 → (splitBatches xs).map List.length = [25, 1]) := by
  have hs := splitBatches_sizes xs
  have hlen : (splitBatches xs).length = (batchSizes xs.length).length := by
    rw [← hs, List.length_map]
  refine ⟨?_, ?_, ?_, ?_, ?_, ?_, ?_⟩
  · rw [hlen, batchSizes_length]
  · intro j b hj hb
    apply batchSizes_inner xs.length j b.length (by rw [← hlen]; exact hj)
    rw [← hs, List.getElem?_map, hb]; rfl
  · intro b hb
    apply batchSizes_last xs.length b.length
    rw [← hs, List.getLast?_map, hb]; rfl
  · intro b hb hnil
    have : b.length ∈ batchSizes xs.length := by
      rw [← hs]; exact List.mem_map_of_mem _ hb
    have := batchSizes_pos _ _ this
    rw [hnil] at this
    simp at this
  · intro h0
    apply List.eq_nil_of_length_eq_zero
    rw [hlen, batchSizes_length, h0]
  · intro h25
    rw [hs, h25]; rfl
  · intro h26
    rw [hs, h26]; rfl

/-! ### Filter: `filterXMLs` -/

theorem startsWith_iff (s p : List Char) : startsWith s p = true ↔ p <+: s := by
  induction s generalizing p with
  | nil => cases p <;> simp [startsWith]
  | cons c s ih =>
    cases p with
    | nil => simp [startsWith]
    | cons d p =>
      simp only [startsWith, Bool.and_eq_true, beq_iff_eq, ih, List.cons_prefix_cons]
      constructor
      · rintro ⟨h1, h2⟩; exact ⟨h1.symm, h2⟩
      · rintro ⟨h1, h2⟩; exact ⟨h1.symm, h2⟩

theorem containsFrom_iff (s p : List Char) : containsFrom s p = true ↔ p <:+: s := by
  induction s with
  | nil =>
    simp only [containsFrom, startsWith_iff]
    constructor
    · intro h; exact h.isInfix
    · intro h; rw [List.eq_nil_of_infix_nil h]
  | cons c s ih =>
    simp only [containsFrom, Bool.or_eq_true, startsWith_iff, ih, List.infix_cons_iff]

theorem filterXMLs_foldl (xs acc : List String) (k : String) :
    xs.foldl (fun filtered xml => if stringsContains xml k then filtered ++ [xml] else filtered)
      acc = acc ++ xs.filter (fun x => stringsContains x k) := by
  induction xs generalizing acc with
  | nil => simp
  | cons x xs ih =>
    rw [List.foldl_cons, ih]
    by_cases h : stringsContains x k = true
    · simp [h, List.filter_cons]
    · simp [h, List.filter_cons]

/-- C3: `filterXMLs xs k` is the sub-sequence of `xs`, in input order and with
multiplicity, of the elements that contain `k` as a substring; the empty list
is mapped to the empty list, and the example of the contract holds. -/
theorem filterXMLs_spec (xs : List String) (k : String) :
    filterXMLs xs k = xs.filter (fun x => decide (k.data <:+: x.data)) ∧
    filterXMLs [] k = [] ∧
    filterXMLs ["a/product/x", "a/category/y"] "product" = ["a/product/x"] := by
  refine ⟨?_, rfl, by decide⟩
  unfold filterXMLs
  rw [filterXMLs_foldl, List.nil_append]
  apply List.filter_congr
  intro x _
  have h := containsFrom_iff x.data k.data
  unfold stringsContains
  by_cases hc : containsFrom x.data k.data = true
  · rw [hc]; symm; rw [decide_eq_true_iff]
    exact h.mp hc
  · have hn : ¬ k.data <:+: x.data := fun hi => hc (h.mpr hi)
    rw [Bool.not_eq_true] at hc
    rw [hc]; symm; rw [decide_eq_false_iff_not]
    exact hn


/-! ### Coordinator: root fetch failure -/

/-- C4: when the fetch of the root sitemap index fails, `handler` returns that
error with the zero `Output`, and its only effect is the root fetch: no child
fetch is launched and nothing is written to the storage sink. -/
theorem handler_root_failure (W : World) (err : Error) (sched : List Action)
    (hroot : W.visit 0 rootURL "//sitemap/loc" = .error err) :
    handler W sched
      = some { out := { ObjectKey := "", BucketName := "", BatchCount := 0 }
               err := some err
               trace := [Event.visit rootURL "//sitemap/loc"] } ∧
    ∀ r, handler W sched = some r →
      (∀ url, Event.visit url "//url/loc" ∉ r.trace) ∧
      (∀ bucket key body, Event.putObject bucket key body ∉ r.trace) := by
  have h : handler W sched
      = some { out := zeroOutput, err := some err,
               trace := [Event.visit rootURL "//sitemap/loc"] } := by
    simp [handler, collectXMLs, hroot]
  refine ⟨h, ?_⟩
  intro r hr
  rw [h] at hr
  cases hr
  constructor
  · intro url hmem
    simp at hmem
  · intro bucket key body hmem
    simp at hmem

/-- The sample world with a failing root fetch, along a schedule that would
launch a goroutine. -/
theorem handler_root_failure_witness :
    rootFailureWorld.visit 0 rootURL "//sitemap/loc" = .error "timeout" ∧
    (handler rootFailureWorld [Action.launch]
      = some { out := { ObjectKey := "", BucketName := "", BatchCount := 0 }
               err := some "timeout"
               trace := [Event.visit rootURL "//sitemap/loc"] } ∧
    ∀ r, handler rootFailureWorld [Action.launch] = some r →
      (∀ url, Event.visit url "//url/loc" ∉ r.trace) ∧
      (∀ bucket key body, Event.putObject bucket key body ∉ r.trace)) :=
  ⟨rfl, handler_root_failure rootFailureWorld "timeout" [Action.launch] rfl⟩

/-! ### Crawler: the invariant of the goroutines -/

theorem sum_pending_congr (n : Nat) (f g : Nat → Task)
    (h : ∀ j, j < n → (g j).pending = (f j).pending) :
    ∑ j in Finset.range n, (g j).pending = ∑ j in Finset.range n, (f j).pending :=
  Finset.sum_congr rfl (fun j hj => h j (Finset.mem_range.mp hj))

theorem sum_pending_update (n i : Nat) (f : Nat → Task) (t : Task) (hi : i < n) :
    ∑ j in Finset.range n, (Function.update f i t j).pending + (f i).pending
      = ∑ j in Finset.range n, (f j).pending + t.pending := by
  have hmem : i ∈ Finset.range n := Finset.mem_range.mpr hi
  rw [← Finset.add_sum_erase _ _ hmem, ← Finset.add_sum_erase _ (fun j => (f j).pending) hmem]
  have : ∑ j in (Finset.range n).erase i, (Function.update f i t j).pending
      = ∑ j in (Finset.range n).erase i, (f j).pending := by
    apply Finset.sum_congr rfl
    intro j hj
    rw [Function.update_noteq (Finset.ne_of_mem_erase hj)]
  rw [this, Function.update_same]
  omega



theorem init_inv (W : World) (f : List String) (trace0 : List Event) :
    Inv W f trace0 (State.init trace0) where
  launched_le := Nat.zero_le _
  idle_iff := fun i => by simp [State.init]
  agrees := fun i => by simp [State.init, Task.Agrees]
  free := fun _ i => by simp [State.init, Task.holdsLock]
  holder := fun i j hi => by simp [State.init, Task.holdsLock] at hi
  snapshot := fun i batch old h => by simp [State.init] at h
  counter := by simp [State.init]
  merged := ⟨[], List.nodup_nil, fun i => by simp [State.init, Task.merged], by simp [State.init]⟩
  effects := ⟨[], by simp [State.init], by simp⟩

theorem Inv.lt_launched {W : World} {f : List String} {trace0 : List Event} {s : State}
    (inv : Inv W f trace0 s) {i : Nat} (h : s.task i ≠ Task.idle) : i < s.launched := by
  by_contra hlt
  exact h ((inv.idle_iff i).mpr (Nat.le_of_not_lt hlt))

theorem Inv.others_free {W : World} {f : List String} {trace0 : List Event} {s : State}
    (inv : Inv W f trace0 s) {i : Nat} (h : (s.task i).holdsLock = true) (j : Nat)
    (hj : j ≠ i) : (s.task j).holdsLock = false := by
  by_contra hne
  rw [Bool.not_eq_false] at hne
  exact hj (inv.holder j i hne h)

/-- The merge order is kept by a step that neither merges nor changes the
shared slice. -/
theorem Inv.merged_keep {W : World} {f : List String} {trace0 : List Event} {s : State}
    (inv : Inv W f trace0 s) (i : Nat) (t : Task) (h : t.merged = (s.task i).merged) :
    ∃ order : List Nat, order.Nodup ∧
      (∀ j, j ∈ order ↔ (Function.update s.task i t j).merged = true) ∧
      s.collectedProductUrls = order.flatMap (contribution W f) := by
  obtain ⟨order, hnd, hmem, hcol⟩ := inv.merged
  refine ⟨order, hnd, fun j => ?_, hcol⟩
  by_cases hj : j = i
  · subst hj; simp only [Function.update_same]; rw [h]; exact hmem j
  · simp only [Function.update_noteq hj]; exact hmem j

/-- The merge order grows by `i` when goroutine `i` merges. -/
theorem Inv.merged_push {W : World} {f : List String} {trace0 : List Event} {s : State}
    (inv : Inv W f trace0 s) (i : Nat) (t : Task) (h0 : (s.task i).merged = false)
    (h1 : t.merged = true) :
    ∃ order : List Nat, order.Nodup ∧
      (∀ j, j ∈ order ↔ (Function.update s.task i t j).merged = true) ∧
      s.collectedProductUrls ++ contribution W f i = order.flatMap (contribution W f) := by
  obtain ⟨order, hnd, hmem, hcol⟩ := inv.merged
  have hnot : i ∉ order := by
    intro hi
    have := (hmem i).mp hi
    rw [h0] at this
    exact Bool.false_ne_true this
  refine ⟨order ++ [i], ?_, fun j => ?_, ?_⟩
  · rw [List.nodup_append]
    refine ⟨hnd, List.nodup_singleton i, ?_⟩
    intro a ha hb
    rw [List.mem_singleton] at hb
    subst hb
    exact hnot ha
  · by_cases hj : j = i
    · subst hj; simp [h1]
    · simp only [Function.update_noteq hj, List.mem_append, List.mem_singleton, hj, or_false]
      exact hmem j
  · rw [hcol]; simp [List.flatMap_append]

/-- A step of goroutine `i`: the conditions under which the invariant is kept. -/
theorem Inv.step {W : World} {f : List String} {trace0 : List Event} {s : State}
    (inv : Inv W f trace0 s) (i : Nat) (t : Task) (mu1 : Bool) (col1 : List String)
    (wg1 : Nat) (extra : List Event)
    (hidle : s.task i ≠ Task.idle) (hidle1 : t ≠ Task.idle)
    (hagree : t.Agrees W f i)
    (hfree : mu1 = false → t.holdsLock = false ∧ ∀ j, j ≠ i → (s.task j).holdsLock = false)
    (hholder : t.holdsLock = true → ∀ j, j ≠ i → (s.task j).holdsLock = false)
    (hsnap : ∀ batch old, t = Task.read batch old → old = col1)
    (hsnap1 : ∀ j, j ≠ i → ∀ batch old, s.task j = Task.read batch old → old = col1)
    (hcount : wg1 + (s.task i).pending = s.wg + t.pending)
    (hmerged : ∃ order : List Nat, order.Nodup ∧
      (∀ j, j ∈ order ↔ (Function.update s.task i t j).merged = true) ∧
      col1 = order.flatMap (contribution W f))
    (hextra : ∀ e ∈ extra, e.isChildEffect = true) :
    Inv W f trace0
      { launched := s.launched, task := Function.update s.task i t,
        collectedProductUrls := col1, mu := mu1, wg := wg1, trace := s.trace ++ extra } where
  launched_le := inv.launched_le
  idle_iff := fun j => by
    by_cases hj : j = i
    · subst hj
      simp only [Function.update_same]
      constructor
      · intro h; exact absurd h hidle1
      · intro h; exact absurd ((inv.idle_iff j).mpr h) hidle
    · simp only [Function.update_noteq hj]
      exact inv.idle_iff j
  agrees := fun j => by
    by_cases hj : j = i
    · subst hj; simpa only [Function.update_same] using hagree
    · simpa only [Function.update_noteq hj] using inv.agrees j
  free := fun hmu j => by
    by_cases hj : j = i
    · subst hj; simp only [Function.update_same]; exact (hfree hmu).1
    · simp only [Function.update_noteq hj]; exact (hfree hmu).2 j hj
  holder := fun j k hj hk => by
    by_cases ej : j = i
    · by_cases ek : k = i
      · rw [ej, ek]
      · subst ej
        simp only [Function.update_same] at hj
        simp only [Function.update_noteq ek] at hk
        rw [hholder hj k ek] at hk
        exact absurd hk Bool.false_ne_true
    · by_cases ek : k = i
      · subst ek
        simp only [Function.update_same] at hk
        simp only [Function.update_noteq ej] at hj
        rw [hholder hk j ej] at hj
        exact absurd hj Bool.false_ne_true
      · simp only [Function.update_noteq ej] at hj
        simp only [Function.update_noteq ek] at hk
        exact inv.holder j k hj hk
  snapshot := fun j batch old h => by
    by_cases hj : j = i
    · subst hj
      simp only [Function.update_same] at h
      exact hsnap batch old h
    · simp only [Function.update_noteq hj] at h
      exact hsnap1 j hj batch old h
  counter := by
    show wg1 = ∑ j in Finset.range s.launched, (Function.update s.task i t j).pending
    have h1 := sum_pending_update s.launched i s.task t (inv.lt_launched hidle)
    have h2 := inv.counter
    omega
  merged := hmerged
  effects := by
    obtain ⟨effects, htr, hall⟩ := inv.effects
    refine ⟨effects ++ extra, by simp [htr], ?_⟩
    intro e he
    rcases List.mem_append.mp he with h | h
    · exact hall e h
    · exact hextra e h

/-- One iteration of the launching loop keeps the invariant. -/
theorem Inv.launch {W : World} {f : List String} {trace0 : List Event} {s : State}
    (inv : Inv W f trace0 s) (hlt : s.launched < f.length) :
    Inv W f trace0
      { s with launched := s.launched + 1
               task := Function.update s.task s.launched Task.ready
               wg := s.wg + 1 } where
  launched_le := hlt
  idle_iff := fun j => by
    show Function.update s.task s.launched Task.ready j = Task.idle ↔ s.launched + 1 ≤ j
    by_cases hj : j = s.launched
    · subst hj; simp
    · simp only [Function.update_noteq hj]
      rw [inv.idle_iff j]
      omega
  agrees := fun j => by
    show (Function.update s.task s.launched Task.ready j).Agrees W f j
    by_cases hj : j = s.launched
    · subst hj; simp [Task.Agrees]
    · simpa only [Function.update_noteq hj] using inv.agrees j
  free := fun hmu j => by
    show (Function.update s.task s.launched Task.ready j).holdsLock = false
    by_cases hj : j = s.launched
    · subst hj; simp [Task.holdsLock]
    · simp only [Function.update_noteq hj]; exact inv.free hmu j
  holder := fun j k hj hk => by
    have key : ∀ a, (Function.update s.task s.launched Task.ready a).holdsLock = true →
        (s.task a).holdsLock = true := by
      intro a ha
      by_cases e : a = s.launched
      · subst e; simp [Task.holdsLock] at ha
      · simpa only [Function.update_noteq e] using ha
    exact inv.holder j k (key j hj) (key k hk)
  snapshot := fun j batch old h => by
    have h1 : Function.update s.task s.launched Task.ready j = Task.read batch old := h
    by_cases hj : j = s.launched
    · subst hj; simp at h1
    · simp only [Function.update_noteq hj] at h1
      exact inv.snapshot j batch old h1
  counter := by
    show s.wg + 1 = ∑ j in Finset.range (s.launched + 1),
      (Function.update s.task s.launched Task.ready j).pending
    rw [Finset.sum_range_succ, Function.update_same, inv.counter]
    congr 1
    symm
    apply sum_pending_congr
    intro j hj
    rw [Function.update_noteq (Nat.ne_of_lt hj)]
  merged := by
    have hidle : s.task s.launched = Task.idle := (inv.idle_iff _).mpr (Nat.le_refl _)
    exact inv.merged_keep s.launched Task.ready (by rw [hidle]; rfl)
  effects := inv.effects

/-- Every enabled action keeps the invariant. -/
theorem exec_inv {W : World} {f : List String} {trace0 : List Event} {s s1 : State}
    {a : Action} (inv : Inv W f trace0 s) (h : exec W f s a = some s1) :
    Inv W f trace0 s1 := by
  cases a with
  | launch =>
    simp only [exec] at h
    split at h
    · next hlt =>
      cases h
      exact inv.launch hlt
    · cases h
  | step i =>
    have hag := inv.agrees i
    simp only [exec] at h
    split at h
    · cases h
    · next ht =>
      have hidle : s.task i ≠ Task.idle := by rw [ht]; simp
      split at h
      · next err herr =>
        cases h
        have := inv.step i (Task.failed err) s.mu s.collectedProductUrls s.wg
          [Event.visit (f.getD i "") "//url/loc"] hidle (by simp)
          (by simpa [Task.Agrees, childFetch] using herr)
          (fun hmu => ⟨rfl, fun j _ => inv.free hmu j⟩)
          (fun hl => by simp [Task.holdsLock] at hl)
          (fun _ _ hr => by simp at hr)
          (fun j _ batch old hr => inv.snapshot j batch old hr)
          (by rw [ht]; rfl)
          (inv.merged_keep i _ (by rw [ht]; rfl))
          (by simp [Event.isChildEffect])
        exact this
      · next batch hok =>
        cases h
        have := inv.step i (Task.fetched batch) s.mu s.collectedProductUrls s.wg
          [Event.visit (f.getD i "") "//url/loc"] hidle (by simp)
          (by simpa [Task.Agrees, childFetch] using hok)
          (fun hmu => ⟨rfl, fun j _ => inv.free hmu j⟩)
          (fun hl => by simp [Task.holdsLock] at hl)
          (fun _ _ hr => by simp at hr)
          (fun j _ batch old hr => inv.snapshot j batch old hr)
          (by rw [ht]; rfl)
          (inv.merged_keep i _ (by rw [ht]; rfl))
          (by simp [Event.isChildEffect])
        exact this
    · next err ht =>
      have hidle : s.task i ≠ Task.idle := by rw [ht]; simp
      cases h
      rw [ht] at hag
      have hc : contribution W f i = [] := by
        simp only [Task.Agrees] at hag
        simp [contribution, hag]
      have hm := inv.merged_push i Task.finishing (by rw [ht]; rfl) rfl
      rw [hc, List.append_nil] at hm
      have := inv.step i Task.finishing s.mu s.collectedProductUrls s.wg
        [Event.log ("Error collecting product URLs for " ++ f.getD i "" ++ ": " ++ err)]
        hidle (by simp) (by simp [Task.Agrees])
        (fun hmu => ⟨rfl, fun j _ => inv.free hmu j⟩)
        (fun hl => by simp [Task.holdsLock] at hl)
        (fun _ _ hr => by simp at hr)
        (fun j _ batch old hr => inv.snapshot j batch old hr)
        (by rw [ht]; rfl)
        hm
        (by simp [Event.isChildEffect])
      exact this
    · next batch ht =>
      have hidle : s.task i ≠ Task.idle := by rw [ht]; simp
      split at h
      · cases h
      · next hmu =>
        cases h
        rw [ht] at hag
        have hmu1 : s.mu = false := by simpa using hmu
        have := inv.step i (Task.locked batch) true s.collectedProductUrls s.wg []
          hidle (by simp) (by simpa [Task.Agrees] using hag)
          (fun h => by simp at h)
          (fun _ j _ => inv.free hmu1 j)
          (fun _ _ hr => by simp at hr)
          (fun j _ batch old hr => inv.snapshot j batch old hr)
          (by rw [ht]; rfl)
          (inv.merged_keep i _ (by rw [ht]; rfl))
          (by simp)
        simpa using this
    · next batch ht =>
      have hidle : s.task i ≠ Task.idle := by rw [ht]; simp
      have hl : (s.task i).holdsLock = true := by rw [ht]; rfl
      cases h
      rw [ht] at hag
      have := inv.step i (Task.read batch s.collectedProductUrls) s.mu
        s.collectedProductUrls s.wg []
        hidle (by simp) (by simpa [Task.Agrees] using hag)
        (fun hmu => by have := inv.free hmu i; rw [hl] at this; cases this)
        (fun _ j hj => inv.others_free hl j hj)
        (fun _ _ hr => by simp at hr; exact hr.2.symm)
        (fun j _ batch old hr => inv.snapshot j batch old hr)
        (by rw [ht]; rfl)
        (inv.merged_keep i _ (by rw [ht]; rfl))
        (by simp)
      simpa using this
    · next batch old ht =>
      have hidle : s.task i ≠ Task.idle := by rw [ht]; simp
      have hl : (s.task i).holdsLock = true := by rw [ht]; rfl
      cases h
      rw [ht] at hag
      have hold : old = s.collectedProductUrls := inv.snapshot i batch old ht
      have hc : contribution W f i = batch := by
        simp only [Task.Agrees] at hag
        simp [contribution, hag]
      have hm := inv.merged_push i Task.appended (by rw [ht]; rfl) rfl
      rw [hc, ← hold] at hm
      have := inv.step i Task.appended s.mu (old ++ batch) s.wg []
        hidle (by simp) (by simp [Task.Agrees])
        (fun hmu => by have := inv.free hmu i; rw [hl] at this; cases this)
        (fun _ j hj => inv.others_free hl j hj)
        (fun _ _ hr => by simp at hr)
        (fun j hj batch1 old1 hr => by
          have := inv.others_free hl j hj
          rw [hr] at this
          cases this)
        (by rw [ht]; rfl)
        hm
        (by simp)
      simpa using this
    · next ht =>
      have hidle : s.task i ≠ Task.idle := by rw [ht]; simp
      have hl : (s.task i).holdsLock = true := by rw [ht]; rfl
      cases h
      have := inv.step i Task.finishing false s.collectedProductUrls s.wg []
        hidle (by simp) (by simp [Task.Agrees])
        (fun _ => ⟨rfl, fun j hj => inv.others_free hl j hj⟩)
        (fun h => by simp [Task.holdsLock] at h)
        (fun _ _ hr => by simp at hr)
        (fun j _ batch old hr => inv.snapshot j batch old hr)
        (by rw [ht]; rfl)
        (inv.merged_keep i _ (by rw [ht]; rfl))
        (by simp)
      simpa using this
    · next ht =>
      have hidle : s.task i ≠ Task.idle := by rw [ht]; simp
      cases h
      have hpos : 0 < s.wg := by
        rw [inv.counter]
        apply Finset.sum_pos'
        · intro j _; exact Nat.zero_le _
        · exact ⟨i, Finset.mem_range.mpr (inv.lt_launched hidle), by rw [ht]; decide⟩
      have := inv.step i Task.done s.mu s.collectedProductUrls (s.wg - 1) []
        hidle (by simp) (by simp [Task.Agrees])
        (fun hmu => ⟨rfl, fun j _ => inv.free hmu j⟩)
        (fun h => by simp [Task.holdsLock] at h)
        (fun _ _ hr => by simp at hr)
        (fun j _ batch old hr => inv.snapshot j batch old hr)
        (by rw [ht]; simp [Task.pending]; omega)
        (inv.merged_keep i _ (by rw [ht]; rfl))
        (by simp)
      simpa using this
    · cases h

theorem run_inv {W : World} {f : List String} {trace0 : List Event} (sched : List Action) :
    ∀ {s s1 : State}, Inv W f trace0 s → run W f s sched = some s1 → Inv W f trace0 s1 := by
  induction sched with
  | nil =>
    intro s s1 inv h
    simp only [run] at h
    cases h
    exact inv
  | cons a rest ih =>
    intro s s1 inv h
    simp only [run] at h
    split at h
    · cases h
    · next s2 h2 => exact ih (exec_inv inv h2) h

/-- When `wg.Wait()` returns, every goroutine has returned, the shared slice is
the concatenation of the contributions in the order of the merges, and the
effects so far are child fetches and log lines. -/
theorem crawl_merged {W : World} {f : List String} {trace0 : List Event}
    {sched : List Action} {s : State} (h : crawl W f trace0 sched = some s) :
    (∃ order : List Nat, order.Perm (List.range f.length) ∧
      s.collectedProductUrls = order.flatMap (contribution W f)) ∧
    (∀ i, i < f.length → s.task i = Task.done) ∧
    (∃ effects : List Event, s.trace = trace0 ++ effects ∧
      ∀ e ∈ effects, e.isChildEffect = true) := by
  unfold crawl at h
  split at h
  · cases h
  · next s1 hrun =>
    split at h
    · next hj =>
      cases h
      have inv := run_inv sched (init_inv W f trace0) hrun
      simp only [State.joined, Bool.and_eq_true, beq_iff_eq] at hj
      obtain ⟨hl, hw⟩ := hj
      have hdone : ∀ i, i < f.length → s.task i = Task.done := by
        intro i hi
        have hsum := inv.counter
        rw [hw, hl] at hsum
        have hz := (Finset.sum_eq_zero_iff.mp hsum.symm) i (Finset.mem_range.mpr hi)
        cases ht : s.task i <;> simp [ht, Task.pending] at hz ⊢
      refine ⟨?_, hdone, inv.effects⟩
      obtain ⟨order, hnd, hmem, hcol⟩ := inv.merged
      refine ⟨order, ?_, hcol⟩
      rw [List.perm_ext_iff_of_nodup hnd (List.nodup_range _)]
      intro i
      rw [hmem i, List.mem_range]
      constructor
      · intro hm
        by_contra hge
        have hidle := (inv.idle_iff i).mpr (by rw [hl]; exact Nat.le_of_not_lt hge)
        rw [hidle] at hm
        cases hm
      · intro hi
        rw [hdone i hi]; rfl
    · cases h

/-! ### Crawler: the goroutines always reach the join -/

theorem run_append (W : World) (f : List String) (a b : List Action) :
    ∀ s : State, run W f s (a ++ b)
      = match run W f s a with
        | none => none
        | some s1 => run W f s1 b := by
  induction a with
  | nil => intro s; simp [run]
  | cons x a ih =>
    intro s
    simp only [List.cons_append, run]
    cases exec W f s x with
    | none => rfl
    | some s2 => exact ih s2

/-- One goroutine run alone from launch to return leaves the counter at zero
and the mutex free. -/
theorem run_block (W : World) (f : List String) (k : Nat) (s : State)
    (hk : k < f.length) (hl : s.launched = k) (hw : s.wg = 0) (hmu : s.mu = false) :
    ∃ s1, run W f s (Action.launch :: taskSteps W f k) = some s1 ∧
      s1.launched = k + 1 ∧ s1.wg = 0 ∧ s1.mu = false := by
  subst hl
  unfold taskSteps
  cases hc : childFetch W f s.launched with
  | error err =>
    unfold childFetch at hc
    simp only [run, exec, hk, hc, hw, hmu, List.replicate, if_true, Function.update_same,
      Function.update_idem]
    exact ⟨_, rfl, rfl, rfl, rfl⟩
  | ok batch =>
    unfold childFetch at hc
    simp only [run, exec, hk, hc, hw, hmu, List.replicate, if_true, Function.update_same,
      Function.update_idem, Bool.false_eq_true, if_false]
    exact ⟨_, rfl, rfl, rfl, rfl⟩

theorem run_scheduleFrom (W : World) (f : List String) (m : Nat) :
    ∀ (k : Nat) (s : State), k + m = f.length → s.launched = k → s.wg = 0 → s.mu = false →
      ∃ s1, run W f s (scheduleFrom W f k m) = some s1 ∧
        s1.launched = f.length ∧ s1.wg = 0 := by
  induction m with
  | zero =>
    intro k s hk hl hw _
    exact ⟨s, rfl, by omega, hw⟩
  | succ m ih =>
    intro k s hk hl hw hmu
    obtain ⟨s1, hrun, hl1, hw1, hmu1⟩ := run_block W f k s (by omega) hl hw hmu
    obtain ⟨s2, hrun2, hl2, hw2⟩ := ih (k + 1) s1 (by omega) hl1 hw1 hmu1
    refine ⟨s2, ?_, hl2, hw2⟩
    rw [scheduleFrom, run_append, hrun]
    exact hrun2

/-- The goroutines can always run to the return of `wg.Wait()`, whatever their
fetches return. -/
theorem crawl_sequential (W : World) (f : List String) (trace0 : List Event) :
    ∃ s, crawl W f trace0 (sequentialSchedule W f) = some s := by
  obtain ⟨s, hrun, hl, hw⟩ :=
    run_scheduleFrom W f f.length 0 (State.init trace0) (by omega) rfl rfl rfl
  refine ⟨s, ?_⟩
  unfold crawl sequentialSchedule
  rw [hrun]
  simp [State.joined, hl, hw]


/-! ### Exporter and coordinator -/

theorem storeData_marshal_error (W : World) (batches : List (List String)) (err : Error)
    (h : W.marshal { Batches := batches } = .error err) :
    storeData W batches
      = (("", some err), [Event.log ("Error marshaling combined batch data: " ++ err)]) := by
  simp only [storeData, h]

theorem storeData_session_error (W : World) (batches : List (List String)) (data : String)
    (err : Error) (h : W.marshal { Batches := batches } = .ok data)
    (hs : W.newSession = some err) :
    storeData W batches
      = (("", some err), [Event.log ("Error uploading data to S3: " ++ err)]) := by
  simp only [storeData, h, uploadToS3, hs, List.nil_append]

theorem storeData_put_error (W : World) (batches : List (List String)) (data : String)
    (err : Error) (h : W.marshal { Batches := batches } = .ok data)
    (hs : W.newSession = none)
    (hp : W.putObject bucketName (objectKeyAt W.now) data = some err) :
    storeData W batches
      = (("", some err), [Event.putObject bucketName (objectKeyAt W.now) data,
          Event.log ("Error uploading data to S3: " ++ err)]) := by
  simp only [storeData, h, uploadToS3, hs, hp, List.singleton_append]

theorem storeData_ok (W : World) (batches : List (List String)) (data : String)
    (h : W.marshal { Batches := batches } = .ok data)
    (hs : W.newSession = none)
    (hp : W.putObject bucketName (objectKeyAt W.now) data = none) :
    storeData W batches
      = ((objectKeyAt W.now, none), [Event.putObject bucketName (objectKeyAt W.now) data]) := by
  simp only [storeData, h, uploadToS3, hs, hp]

theorem storeData_puts (W : World) (batches : List (List String)) :
    ((storeData W batches).2.filter Event.isPut).length ≤ 1 := by
  cases h : W.marshal { Batches := batches } with
  | error err => rw [storeData_marshal_error W batches err h]; simp [Event.isPut]
  | ok data =>
    cases hs : W.newSession with
    | some err => rw [storeData_session_error W batches data err h hs]; simp [Event.isPut]
    | none =>
      cases hp : W.putObject bucketName (objectKeyAt W.now) data with
      | some err => rw [storeData_put_error W batches data err h hs hp]; simp [Event.isPut]
      | none => rw [storeData_ok W batches data h hs hp]; simp [Event.isPut]

theorem exportStage_eq (W : World) (collected : List String) (trace : List Event) :
    exportStage W collected trace
      = match (storeData W (splitBatches collected)).1.2 with
        | some err =>
          { out := zeroOutput, err := some err,
            trace := trace ++ (storeData W (splitBatches collected)).2 }
        | none =>
          { out := { ObjectKey := (storeData W (splitBatches collected)).1.1
                     BucketName := bucketName
                     BatchCount := ((splitBatches collected).length : Int) }
            err := none
            trace := trace ++ (storeData W (splitBatches collected)).2 } := by
  unfold exportStage
  simp only []
  split <;> simp_all

theorem handler_ok {W : World} {allXMLs : List String} {sched : List Action} {r : Result}
    (hroot : W.visit 0 rootURL "//sitemap/loc" = .ok allXMLs) (h : handler W sched = some r) :
    ∃ s, crawl W (filterXMLs allXMLs "product") [Event.visit rootURL "//sitemap/loc"] sched
        = some s ∧ r = exportStage W s.collectedProductUrls s.trace := by
  simp only [handler, collectXMLs, hroot] at h
  split at h
  · cases h
  · next s hs =>
    cases h
    exact ⟨s, hs, rfl⟩

/-- C5: when the root fetch succeeds, failing child fetches never make
`handler` fail. The goroutines can always run to the join; and along every
complete schedule the collection passed to `splitBatches` is the concatenation,
in the order of the merges, of the whole lists returned by the successful
children (nothing for a failed one), the run goes on through batching and
export, and the error returned is the one of `storeData` on those batches. -/
theorem handler_child_failures (W : World) (allXMLs : List String)
    (hroot : W.visit 0 rootURL "//sitemap/loc" = .ok allXMLs) :
    (∃ r, handler W (sequentialSchedule W (filterXMLs allXMLs "product")) = some r) ∧
    ∀ sched r, handler W sched = some r →
      ∃ (order : List Nat) (trace : List Event),
        order.Perm (List.range (filterXMLs allXMLs "product").length) ∧
        r = exportStage W
          (order.flatMap (fun i =>
            match childFetch W (filterXMLs allXMLs "product") i with
            | .ok batch => batch
            | .error _ => [])) trace ∧
        r.err = (storeData W (splitBatches
          (order.flatMap (fun i =>
            match childFetch W (filterXMLs allXMLs "product") i with
            | .ok batch => batch
            | .error _ => [])))).1.2 := by
  constructor
  · obtain ⟨s, hs⟩ := crawl_sequential W (filterXMLs allXMLs "product")
      [Event.visit rootURL "//sitemap/loc"]
    refine ⟨exportStage W s.collectedProductUrls s.trace, ?_⟩
    simp only [handler, collectXMLs, hroot, hs]
  · intro sched r h
    obtain ⟨s, hs, hr⟩ := handler_ok hroot h
    obtain ⟨⟨order, hperm, hcol⟩, _, _⟩ := crawl_merged hs
    refine ⟨order, s.trace, hperm, ?_, ?_⟩
    · rw [hr, hcol]; rfl
    · rw [hr, hcol, exportStage_eq]
      show _ = (storeData W (splitBatches
        (order.flatMap (contribution W (filterXMLs allXMLs "product"))))).1.2
      split <;> simp_all

/-- The sample world, whose second child fetch fails. -/
theorem handler_child_failures_witness :
    sampleWorld.visit 0 rootURL "//sitemap/loc"
        = .ok ["s/product/1.xml", "s/category/1.xml", "s/product/2.xml"] ∧
    handler sampleWorld sampleSchedule
      = some { out := { ObjectKey := "batches_2024-01-02_03-04-05.json"
                        BucketName := "mamarkt-bucket", BatchCount := 1 }
               err := none
               trace := [Event.visit rootURL "//sitemap/loc",
                         Event.visit "s/product/2.xml" "//url/loc",
                         Event.visit "s/product/1.xml" "//url/loc",
                         Event.log
                           "Error collecting product URLs for s/product/2.xml: connection reset",
                         Event.putObject "mamarkt-bucket" "batches_2024-01-02_03-04-05.json"
                           "\x7b\x7d"] } ∧
    ((∃ r, handler sampleWorld (sequentialSchedule sampleWorld
        (filterXMLs ["s/product/1.xml", "s/category/1.xml", "s/product/2.xml"] "product"))
          = some r) ∧
    ∀ sched r, handler sampleWorld sched = some r →
      ∃ (order : List Nat) (trace : List Event),
        order.Perm (List.range
          (filterXMLs ["s/product/1.xml", "s/category/1.xml", "s/product/2.xml"]
            "product").length) ∧
        r = exportStage sampleWorld
          (order.flatMap (fun i =>
            match childFetch sampleWorld
              (filterXMLs ["s/product/1.xml", "s/category/1.xml", "s/product/2.xml"]
                "product") i with
            | .ok batch => batch
            | .error _ => [])) trace ∧
        r.err = (storeData sampleWorld (splitBatches
          (order.flatMap (fun i =>
            match childFetch sampleWorld
              (filterXMLs ["s/product/1.xml", "s/category/1.xml", "s/product/2.xml"]
                "product") i with
            | .ok batch => batch
            | .error _ => [])))).1.2) := by
  refine ⟨rfl, ?_, handler_child_failures sampleWorld _ rfl⟩
  simp [handler, collectXMLs, sampleWorld, filterXMLs, stringsContains, containsFrom,
    startsWith, crawl, run, sampleSchedule, exec, State.init, State.joined, Function.update,
    exportStage, storeData, splitBatches, splitBatchesLoop, slice, uploadToS3, objectKeyAt,
    bucketName, Time.Format, appendInt, decimal, digitChar, rootURL]


/-- C6: when the root fetch, the serialization and the storage write succeed,
`handler` returns no error and an `Output` whose `batchCount` is the number of
batches of the exported `Data` (`ceil(N/25)` for `N` discovered URLs, 0 when no
sitemap was filtered), whose `objectKey` is the key of the one `PutObject` call
and whose `bucketName` is `"mamarkt-bucket"`, the bucket of that call. -/
theorem handler_success (W : World) (allXMLs : List String) (sched : List Action) (s : State)
    (data : String)
    (hroot : W.visit 0 rootURL "//sitemap/loc" = .ok allXMLs)
    (hcrawl : crawl W (filterXMLs allXMLs "product") [Event.visit rootURL "//sitemap/loc"] sched
      = some s)
    (hmarshal : W.marshal { Batches := splitBatches s.collectedProductUrls } = .ok data)
    (hsession : W.newSession = none)
    (hput : W.putObject "mamarkt-bucket" (objectKeyAt W.now) data = none) :
    handler W sched
      = some { out := { ObjectKey := objectKeyAt W.now
                        BucketName := "mamarkt-bucket"
                        BatchCount := ((splitBatches s.collectedProductUrls).length : Int) }
               err := none
               trace := s.trace
                 ++ [Event.putObject "mamarkt-bucket" (objectKeyAt W.now) data] } ∧
    (splitBatches s.collectedProductUrls).length = (s.collectedProductUrls.length + 24) / 25 ∧
    (s.trace.filter Event.isPut = []) ∧
    (filterXMLs allXMLs "product" = [] →
      s.collectedProductUrls = [] ∧ (splitBatches s.collectedProductUrls).length = 0) := by
  have hst := storeData_ok W (splitBatches s.collectedProductUrls) data hmarshal hsession hput
  obtain ⟨⟨order, hperm, hcol⟩, _, effects, htr, heff⟩ := crawl_merged hcrawl
  refine ⟨?_, splitBatches_length _, ?_, ?_⟩
  · simp only [handler, collectXMLs, hroot, hcrawl, exportStage, hst]
    rfl
  · rw [htr, List.filter_append]
    have : effects.filter Event.isPut = [] := by
      rw [List.filter_eq_nil_iff]
      intro e he hp
      have := heff e he
      cases e <;> simp [Event.isPut, Event.isChildEffect] at hp this
    rw [this]
    rfl
  · intro hnil
    rw [hnil] at hperm
    have : order = [] := by simpa using hperm
    have hc : s.collectedProductUrls = [] := by rw [hcol, this]; rfl
    refine ⟨hc, ?_⟩
    rw [splitBatches_length, hc]
    rfl

/-- The sample world along the interleaved sample schedule. -/
theorem handler_success_witness :
    handler sampleWorld sampleSchedule
      = some { out := { ObjectKey := "batches_2024-01-02_03-04-05.json"
                        BucketName := "mamarkt-bucket", BatchCount := 1 }
               err := none
               trace := [Event.visit rootURL "//sitemap/loc",
                         Event.visit "s/product/2.xml" "//url/loc",
                         Event.visit "s/product/1.xml" "//url/loc",
                         Event.log
                           "Error collecting product URLs for s/product/2.xml: connection reset",
                         Event.putObject "mamarkt-bucket" "batches_2024-01-02_03-04-05.json"
                           "\x7b\x7d"] } := by
  have hc : ∃ s, crawl sampleWorld
      (filterXMLs ["s/product/1.xml", "s/category/1.xml", "s/product/2.xml"] "product")
      [Event.visit rootURL "//sitemap/loc"] sampleSchedule = some s ∧
      s.collectedProductUrls = ["p/1", "p/2"] ∧
      s.trace = [Event.visit rootURL "//sitemap/loc",
                 Event.visit "s/product/2.xml" "//url/loc",
                 Event.visit "s/product/1.xml" "//url/loc",
                 Event.log
                   "Error collecting product URLs for s/product/2.xml: connection reset"] :=
    ⟨_, rfl, rfl, rfl⟩
  obtain ⟨s, hs, hcol, htr⟩ := hc
  have h := (handler_success sampleWorld _ sampleSchedule s "\x7b\x7d" rfl hs rfl rfl rfl).1
  rw [h, hcol, htr]
  simp [splitBatches, splitBatchesLoop, slice, objectKeyAt, sampleWorld, Time.Format, appendInt,
    decimal, digitChar]

/-- C7: when serialization or the write to the storage sink fails, `storeData`
returns the empty key with that error and `handler` returns that error with the
zero `Output`; every run makes at most one `PutObject` call. -/
theorem export_failure (W : World) :
    (∀ batches err, W.marshal { Batches := batches } = .error err →
      (storeData W batches).1 = ("", some err)) ∧
    (∀ batches data err, W.marshal { Batches := batches } = .ok data →
      (uploadToS3 W bucketName (objectKeyAt W.now) data).1 = some err →
      (storeData W batches).1 = ("", some err)) ∧
    (∀ allXMLs sched s err, W.visit 0 rootURL "//sitemap/loc" = .ok allXMLs →
      crawl W (filterXMLs allXMLs "product") [Event.visit rootURL "//sitemap/loc"] sched
        = some s →
      (storeData W (splitBatches s.collectedProductUrls)).1.2 = some err →
      ∃ trace, handler W sched
        = some { out := { ObjectKey := "", BucketName := "", BatchCount := 0 }
                 err := some err, trace := trace }) ∧
    (∀ sched r, handler W sched = some r → (r.trace.filter Event.isPut).length ≤ 1) := by
  refine ⟨?_, ?_, ?_, ?_⟩
  · intro batches err h
    rw [storeData_marshal_error W batches err h]
  · intro batches data err h hu
    simp only [storeData, h]
    split
    · next e effects heq =>
      rw [heq] at hu
      simp only [Option.some.injEq] at hu
      rw [hu]
    · next effects heq =>
      rw [heq] at hu
      cases hu
  · intro allXMLs sched s err hroot hcrawl hst
    refine ⟨s.trace ++ (storeData W (splitBatches s.collectedProductUrls)).2, ?_⟩
    simp only [handler, collectXMLs, hroot, hcrawl, exportStage_eq, hst]
    rfl
  · intro sched r h
    cases hroot : W.visit 0 rootURL "//sitemap/loc" with
    | error err =>
      simp only [handler, collectXMLs, hroot] at h
      cases h
      simp [Event.isPut]
    | ok allXMLs =>
      obtain ⟨s, hs, hr⟩ := handler_ok hroot h
      obtain ⟨_, _, effects, htr, heff⟩ := crawl_merged hs
      have hnone : effects.filter Event.isPut = [] := by
        rw [List.filter_eq_nil_iff]
        intro e he hp
        have := heff e he
        cases e <;> simp [Event.isPut, Event.isChildEffect] at hp this
      have htrace : r.trace = s.trace ++ (storeData W (splitBatches s.collectedProductUrls)).2 := by
        rw [hr, exportStage_eq]
        split <;> rfl
      rw [htrace, htr, List.filter_append, List.filter_append, hnone]
      simpa [Event.isPut] using storeData_puts W (splitBatches s.collectedProductUrls)

/-- A rejected write and a failed serialization, along the sample schedule. -/
theorem export_failure_witness :
    handler putFailureWorld sampleSchedule
      = some { out := { ObjectKey := "", BucketName := "", BatchCount := 0 }
               err := some "access denied"
               trace := [Event.visit rootURL "//sitemap/loc",
                         Event.visit "s/product/2.xml" "//url/loc",
                         Event.visit "s/product/1.xml" "//url/loc",
                         Event.log
                           "Error collecting product URLs for s/product/2.xml: connection reset",
                         Event.putObject "mamarkt-bucket" "batches_2024-01-02_03-04-05.json"
                           "\x7b\x7d",
                         Event.log "Error uploading data to S3: access denied"] } ∧
    (storeData marshalFailureWorld [["p/1", "p/2"]]).1 = ("", some "unsupported value") ∧
    (∀ r, handler putFailureWorld sampleSchedule = some r →
      (r.trace.filter Event.isPut).length ≤ 1) := by
  refine ⟨?_, (export_failure marshalFailureWorld).1 [["p/1", "p/2"]] "unsupported value" rfl,
    fun r h => (export_failure putFailureWorld).2.2.2 sampleSchedule r h⟩
  simp [handler, collectXMLs, putFailureWorld, sampleWorld, filterXMLs, stringsContains,
    containsFrom, startsWith, crawl, run, sampleSchedule, exec, State.init, State.joined,
    Function.update, exportStage, storeData, splitBatches, splitBatchesLoop, slice, uploadToS3,
    objectKeyAt, bucketName, Time.Format, appendInt, decimal, digitChar, rootURL, zeroOutput]

/-! ### Concurrent merge -/

theorem flatMap_length_sum (b : Nat → List String) (l : List Nat) :
    (l.flatMap b).length = (l.map (fun i => (b i).length)).sum := by
  induction l with
  | nil => rfl
  | cons a l ih => simp [List.flatMap_cons, ih]

theorem flatMap_congr_mem (b c : Nat → List String) (l : List Nat)
    (h : ∀ i ∈ l, b i = c i) : l.flatMap b = l.flatMap c := by
  induction l with
  | nil => rfl
  | cons a l ih =>
    rw [List.flatMap_cons, List.flatMap_cons, h a (List.mem_cons_self a l),
      ih (fun i hi => h i (List.mem_cons_of_mem a hi))]

/-- C9: when the `K` child fetches succeed with the lists `b 0`, ..., `b (K-1)`,
the slice accumulated under the mutex has, at the join of every schedule, the
total size of the lists and the same elements with the same multiplicities:
no append is lost and duplicates are kept, whatever the interleaving. -/
theorem concurrent_merge (W : World) (f : List String) (trace0 : List Event)
    (b : Nat → List String)
    (hok : ∀ i, i < f.length → childFetch W f i = .ok (b i)) :
    (∃ s, crawl W f trace0 (sequentialSchedule W f) = some s) ∧
    (∀ sched s, crawl W f trace0 sched = some s →
      s.collectedProductUrls.length = ((List.range f.length).map (fun i => (b i).length)).sum ∧
      s.collectedProductUrls.Perm ((List.range f.length).flatMap b) ∧
      ∃ order : List Nat, order.Perm (List.range f.length) ∧
        s.collectedProductUrls = order.flatMap b) ∧
    (∀ sched1 s1 sched2 s2, crawl W f trace0 sched1 = some s1 →
      crawl W f trace0 sched2 = some s2 →
      (s1.collectedProductUrls : Multiset String) = (s2.collectedProductUrls : Multiset String))
    := by
  have key : ∀ sched s, crawl W f trace0 sched = some s →
      ∃ order : List Nat, order.Perm (List.range f.length) ∧
        s.collectedProductUrls = order.flatMap b := by
    intro sched s h
    obtain ⟨⟨order, hperm, hcol⟩, _, _⟩ := crawl_merged h
    refine ⟨order, hperm, ?_⟩
    rw [hcol]
    apply flatMap_congr_mem
    intro i hi
    have hlt : i < f.length := List.mem_range.mp (hperm.subset hi)
    simp only [contribution, hok i hlt]
  have perm : ∀ sched s, crawl W f trace0 sched = some s →
      s.collectedProductUrls.Perm ((List.range f.length).flatMap b) := by
    intro sched s h
    obtain ⟨order, hperm, hcol⟩ := key sched s h
    rw [hcol]
    exact hperm.flatMap_right b
  refine ⟨crawl_sequential W f trace0, ?_, ?_⟩
  · intro sched s h
    refine ⟨?_, perm sched s h, key sched s h⟩
    rw [(perm sched s h).length_eq, flatMap_length_sum]
  · intro sched1 s1 sched2 s2 h1 h2
    rw [Multiset.coe_eq_coe]
    exact (perm sched1 s1 h1).trans (perm sched2 s2 h2).symm

/-- Two children that both succeed, with one URL in common. -/
theorem concurrent_merge_witness :
    (∀ i, i < ["s/product/1.xml", "s/product/2.xml"].length →
      childFetch allOkWorld ["s/product/1.xml", "s/product/2.xml"] i = .ok (allOkBatches i)) ∧
    (crawl allOkWorld ["s/product/1.xml", "s/product/2.xml"] [] sampleSchedule).map
      (fun s => s.collectedProductUrls) = none ∧
    (crawl allOkWorld ["s/product/1.xml", "s/product/2.xml"] []
      [Action.launch, Action.launch, Action.step 1, Action.step 0, Action.step 1, Action.step 1,
       Action.step 1, Action.step 1, Action.step 0, Action.step 1, Action.step 0, Action.step 0,
       Action.step 0, Action.step 0]).map
      (fun s => s.collectedProductUrls) = some ["p/2", "p/3", "p/4", "p/1", "p/2"] ∧
    ((∃ s, crawl allOkWorld ["s/product/1.xml", "s/product/2.xml"] []
      (sequentialSchedule allOkWorld ["s/product/1.xml", "s/product/2.xml"]) = some s) ∧
    (∀ sched s, crawl allOkWorld ["s/product/1.xml", "s/product/2.xml"] [] sched = some s →
      s.collectedProductUrls.length
        = ((List.range ["s/product/1.xml", "s/product/2.xml"].length).map
            (fun i => (allOkBatches i).length)).sum ∧
      s.collectedProductUrls.Perm
        ((List.range ["s/product/1.xml", "s/product/2.xml"].length).flatMap allOkBatches) ∧
      ∃ order : List Nat, order.Perm (List.range ["s/product/1.xml", "s/product/2.xml"].length) ∧
        s.collectedProductUrls = order.flatMap allOkBatches) ∧
    (∀ sched1 s1 sched2 s2,
      crawl allOkWorld ["s/product/1.xml", "s/product/2.xml"] [] sched1 = some s1 →
      crawl allOkWorld ["s/product/1.xml", "s/product/2.xml"] [] sched2 = some s2 →
      (s1.collectedProductUrls : Multiset String)
        = (s2.collectedProductUrls : Multiset String))) := by
  have hok : ∀ i, i < ["s/product/1.xml", "s/product/2.xml"].length →
      childFetch allOkWorld ["s/product/1.xml", "s/product/2.xml"] i
        = .ok (allOkBatches i) := by
    intro i hi
    simp only [List.length_cons, List.length_nil] at hi
    interval_cases i <;> rfl
  exact ⟨hok, by decide, by decide, concurrent_merge allOkWorld _ [] allOkBatches hok⟩


/-! ### Object key -/

theorem digitValue_digitChar (d : Nat) : digitValue (digitChar d) = d % 10 := by
  have h : d % 10 < 10 := Nat.mod_lt _ (by decide)
  unfold digitChar
  generalize d % 10 = r at h
  interval_cases r <;> rfl

theorem digitChar_ne_minus (d : Nat) : digitChar d ≠ '-' := by
  have h : d % 10 < 10 := Nat.mod_lt _ (by decide)
  unfold digitChar
  generalize d % 10 = r at h
  interval_cases r <;> decide

theorem parseDecimal_snoc (cs : List Char) (c : Char) :
    parseDecimal (cs ++ [c]) = 10 * parseDecimal cs + digitValue c := by
  simp [parseDecimal, List.foldl_append]

theorem parseDecimal_decimal (u : Nat) : parseDecimal (decimal u) = u := by
  induction u using Nat.strong_induction_on with
  | _ u ih =>
    rw [decimal]
    split
    · next h =>
      simp only [parseDecimal, List.foldl_cons, List.foldl_nil, digitValue_digitChar]
      omega
    · next h =>
      rw [parseDecimal_snoc, ih (u / 10) (by omega), digitValue_digitChar]
      omega

theorem parseDecimal_zeros (k : Nat) (cs : List Char) :
    parseDecimal (List.replicate k '0' ++ cs) = parseDecimal cs := by
  induction k with
  | zero => rfl
  | succ k ih =>
    rw [List.replicate_succ, List.cons_append]
    unfold parseDecimal at ih ⊢
    rw [List.foldl_cons]
    exact ih

theorem decimal_ne_minus (u : Nat) : ∀ c ∈ decimal u, c ≠ '-' := by
  induction u using Nat.strong_induction_on with
  | _ u ih =>
    intro c hc
    rw [decimal] at hc
    split at hc
    · rw [List.mem_singleton] at hc
      rw [hc]; exact digitChar_ne_minus u
    · rcases List.mem_append.mp hc with h | h
      · exact ih (u / 10) (by omega) c h
      · rw [List.mem_singleton] at h
        rw [h]; exact digitChar_ne_minus _

theorem decimal_ne_nil (u : Nat) : decimal u ≠ [] := by
  rw [decimal]
  split <;> simp

/-- The digits of `appendInt` after the sign: zeros up to the width, then the
decimal digits. -/
theorem appendInt_eq (x : Int) (width : Nat) :
    appendInt x width
      = (if x < 0 then ['-'] else [])
        ++ (List.replicate (width - (decimal x.natAbs).length) '0' ++ decimal x.natAbs) := by
  simp [appendInt]

theorem padded_ne_minus (k u : Nat) :
    ∀ c ∈ List.replicate k '0' ++ decimal u, c ≠ '-' := by
  intro c hc
  rcases List.mem_append.mp hc with h | h
  · rw [(List.mem_replicate.mp h).2]; decide
  · exact decimal_ne_minus u c h

theorem padded_head (k u : Nat) :
    ∃ c rest, List.replicate k '0' ++ decimal u = c :: rest ∧ c ≠ '-' := by
  cases hp : List.replicate k '0' ++ decimal u with
  | nil =>
    have := decimal_ne_nil u
    simp at hp
    exact absurd hp.2 this
  | cons c rest =>
    exact ⟨c, rest, rfl, padded_ne_minus k u c (by rw [hp]; exact List.mem_cons_self c rest)⟩

/-- `appendInt` is injective in the number it renders. -/
theorem appendInt_inj (x y : Int) (width : Nat) (h : appendInt x width = appendInt y width) :
    x = y := by
  rw [appendInt_eq, appendInt_eq] at h
  by_cases hx : x < 0 <;> by_cases hy : y < 0
  · simp only [hx, hy, if_true, List.singleton_append, List.cons.injEq, true_and] at h
    have := congrArg parseDecimal h
    rw [parseDecimal_zeros, parseDecimal_zeros, parseDecimal_decimal, parseDecimal_decimal]
      at this
    omega
  · simp only [hx, hy, if_true, if_false, List.singleton_append, List.nil_append] at h
    obtain ⟨c, rest, hc, hne⟩ := padded_head (width - (decimal y.natAbs).length) y.natAbs
    rw [hc] at h
    simp only [List.cons.injEq] at h
    exact absurd h.1.symm hne
  · simp only [hx, hy, if_true, if_false, List.singleton_append, List.nil_append] at h
    obtain ⟨c, rest, hc, hne⟩ := padded_head (width - (decimal x.natAbs).length) x.natAbs
    rw [hc] at h
    simp only [List.cons.injEq] at h
    exact absurd h.1 hne
  · simp only [hx, hy, if_false, List.nil_append] at h
    have := congrArg parseDecimal h
    rw [parseDecimal_zeros, parseDecimal_zeros, parseDecimal_decimal, parseDecimal_decimal]
      at this
    omega

theorem decimal_lt_ten (u : Nat) (h : u < 10) : decimal u = [digitChar u] := by
  rw [decimal, if_pos h]

theorem decimal_ge_ten (u : Nat) (h : 10 ≤ u) :
    decimal u = decimal (u / 10) ++ [digitChar (u % 10)] := by
  rw [decimal, if_neg (by omega)]

theorem digitChar_mod (d : Nat) : digitChar (d % 10) = digitChar d := by
  simp [digitChar]

theorem digitChar_zero_of_lt (u k : Nat) (h : u < k) :
    '0' = digitChar (u / k) := by
  rw [Nat.div_eq_of_lt h]
  rfl

/-- A two-digit field: the tens digit, then the units digit. -/
theorem appendInt_two (n : Nat) (h : n < 100) :
    appendInt (n : Int) 2 = [digitChar (n / 10), digitChar n] := by
  rw [appendInt_eq]
  simp only [Int.natAbs_ofNat, Int.natCast_nonneg, not_lt.mpr, if_false, List.nil_append]
  by_cases h10 : n < 10
  · rw [decimal_lt_ten n h10, ← digitChar_zero_of_lt n 10 h10]
    rfl
  · rw [decimal_ge_ten n (by omega), decimal_lt_ten (n / 10) (by omega), digitChar_mod]
    rfl

/-- A four-digit year. -/
theorem appendInt_four (n : Nat) (h : n < 10000) :
    appendInt (n : Int) 4
      = [digitChar (n / 1000), digitChar (n / 100), digitChar (n / 10), digitChar n] := by
  rw [appendInt_eq]
  simp only [Int.natAbs_ofNat, Int.natCast_nonneg, not_lt.mpr, if_false, List.nil_append]
  by_cases h10 : n < 10
  · rw [decimal_lt_ten n h10, ← digitChar_zero_of_lt n 10 h10,
      ← digitChar_zero_of_lt n 100 (by omega),
      ← digitChar_zero_of_lt n 1000 (by omega)]
    rfl
  · by_cases h100 : n < 100
    · rw [decimal_ge_ten n (by omega), decimal_lt_ten (n / 10) (by omega), digitChar_mod,
        ← digitChar_zero_of_lt n 100 h100,
        ← digitChar_zero_of_lt n 1000 (by omega)]
      rfl
    · by_cases h1000 : n < 1000
      · rw [decimal_ge_ten n (by omega), decimal_ge_ten (n / 10) (by omega),
          decimal_lt_ten (n / 10 / 10) (by omega), digitChar_mod, digitChar_mod,
          ← digitChar_zero_of_lt n 1000 h1000, Nat.div_div_eq_div_mul]
        rfl
      · rw [decimal_ge_ten n (by omega), decimal_ge_ten (n / 10) (by omega),
          decimal_ge_ten (n / 10 / 10) (by omega),
          decimal_lt_ten (n / 10 / 10 / 10) (by omega), digitChar_mod, digitChar_mod,
          digitChar_mod, Nat.div_div_eq_div_mul, Nat.div_div_eq_div_mul,
          Nat.div_div_eq_div_mul]
        rfl

theorem appendInt_two_length (n : Nat) (h : n < 100) : (appendInt (n : Int) 2).length = 2 := by
  rw [appendInt_two n h]; rfl

/-- The fields rendered by `Format` determine the rendering, and conversely. -/
theorem Format_inj (t1 t2 : Time) (h1 : t1.Valid) (h2 : t2.Valid)
    (h : t1.Format = t2.Format) :
    t1.year = t2.year ∧ t1.month = t2.month ∧ t1.day = t2.day ∧ t1.hour = t2.hour ∧
    t1.minute = t2.minute ∧ t1.second = t2.second := by
  obtain ⟨_, hm1, _, hd1, hh1, hmi1, hs1, _⟩ := h1
  obtain ⟨_, hm2, _, hd2, hh2, hmi2, hs2, _⟩ := h2
  have hday : ∀ y m, daysIn y m ≤ 31 := by
    intro y m; unfold daysIn; split_ifs <;> omega
  have hd1 : t1.day < 100 := by have := hday t1.year t1.month; omega
  have hd2 : t2.day < 100 := by have := hday t2.year t2.month; omega
  have h := congrArg String.data h
  simp only [Time.Format] at h
  have len2 : ∀ a b : Nat, a < 100 → b < 100 →
      (appendInt (a : Int) 2).length = (appendInt (b : Int) 2).length := by
    intro a b ha hb
    rw [appendInt_two_length a ha, appendInt_two_length b hb]
  obtain ⟨h, hsec⟩ := List.append_inj' h (len2 t1.second t2.second (by omega) (by omega))
  obtain ⟨h, _⟩ := List.append_inj' h rfl
  obtain ⟨h, hmin⟩ := List.append_inj' h (len2 t1.minute t2.minute (by omega) (by omega))
  obtain ⟨h, _⟩ := List.append_inj' h rfl
  obtain ⟨h, hhour⟩ := List.append_inj' h (len2 t1.hour t2.hour (by omega) (by omega))
  obtain ⟨h, _⟩ := List.append_inj' h rfl
  obtain ⟨h, hday⟩ := List.append_inj' h (len2 t1.day t2.day hd1 hd2)
  obtain ⟨h, _⟩ := List.append_inj' h rfl
  obtain ⟨h, hmonth⟩ := List.append_inj' h (len2 t1.month t2.month (by omega) (by omega))
  obtain ⟨hyear, _⟩ := List.append_inj' h rfl
  refine ⟨appendInt_inj _ _ _ hyear, ?_, ?_, ?_, ?_, ?_⟩
  · exact Int.ofNat_inj.mp (appendInt_inj _ _ _ hmonth)
  · exact Int.ofNat_inj.mp (appendInt_inj _ _ _ hday)
  · exact Int.ofNat_inj.mp (appendInt_inj _ _ _ hhour)
  · exact Int.ofNat_inj.mp (appendInt_inj _ _ _ hmin)
  · exact Int.ofNat_inj.mp (appendInt_inj _ _ _ hsec)

theorem objectKeyAt_inj (t1 t2 : Time) (h : objectKeyAt t1 = objectKeyAt t2) :
    t1.Format = t2.Format := by
  simp only [objectKeyAt] at h
  have h1 := congrArg String.data h
  simp only [String.data_append] at h1
  have h2 := List.append_cancel_right h1
  have h3 := List.append_cancel_left h2
  exact String.ext h3

/-- C8, as stated, fails: rendered in a zone whose clock is set back, two
export times one hour apart give the same object key. -/
theorem objectKey_collision :
    beforeSetBack.Valid ∧ afterSetBack.Valid ∧
    afterSetBack.unix - beforeSetBack.unix = 3600 ∧
    objectKeyAt beforeSetBack = "batches_2024-10-27_02-30-00.json" ∧
    objectKeyAt afterSetBack = "batches_2024-10-27_02-30-00.json" ∧
    ¬ (∀ t1 t2 : Time, t1.Valid → t2.Valid →
        1000000000 < |t1.unixNano - t2.unixNano| → objectKeyAt t1 ≠ objectKeyAt t2) := by
  have hkey : objectKeyAt beforeSetBack = "batches_2024-10-27_02-30-00.json" := by
    simp [objectKeyAt, beforeSetBack, Time.Format, appendInt, decimal, digitChar]
  refine ⟨by decide, by decide, by decide, hkey, hkey, ?_⟩
  intro h
  exact h beforeSetBack afterSetBack (by decide) (by decide) (by decide) rfl

/-- C8, amended: the object key is `"batches_"`, the export time rendered as
`YYYY-MM-DD_HH-MM-SS` from its calendar fields, and `".json"`; it is the key
`storeData` returns; and two export times rendered with the same offset from
UTC that are more than one second apart have distinct keys. -/
theorem objectKey_distinct (t1 t2 : Time) (h1 : t1.Valid) (h2 : t2.Valid)
    (hzone : t1.zoneOffset = t2.zoneOffset)
    (hapart : 1000000000 < |t1.unixNano - t2.unixNano|) :
    objectKeyAt t1 ≠ objectKeyAt t2 ∧
    objectKeyAt t1 = "batches_" ++ t1.Format ++ ".json" ∧
    (∀ y : Nat, t1.year = (y : Int) → y < 10000 →
      t1.Format = String.mk
        [digitChar (y / 1000), digitChar (y / 100), digitChar (y / 10), digitChar y, '-',
         digitChar (t1.month / 10), digitChar t1.month, '-',
         digitChar (t1.day / 10), digitChar t1.day, '_',
         digitChar (t1.hour / 10), digitChar t1.hour, '-',
         digitChar (t1.minute / 10), digitChar t1.minute, '-',
         digitChar (t1.second / 10), digitChar t1.second]) ∧
    (∀ (W : World) (batches : List (List String)) (key : String),
      W.now = t1 → (storeData W batches).1 = (key, none) → key = objectKeyAt t1) := by
  refine ⟨?_, rfl, ?_, ?_⟩
  · intro hkey
    obtain ⟨hy, hm, hd, hh, hmi, hs⟩ := Format_inj t1 t2 h1 h2 (objectKeyAt_inj t1 t2 hkey)
    have hunix : t1.unix = t2.unix := by
      simp only [Time.unix, hy, hm, hd, hh, hmi, hs, hzone]
    have hn1 := h1.2.2.2.2.2.2.2
    have hn2 := h2.2.2.2.2.2.2.2
    have hlt : |t1.unixNano - t2.unixNano| < 1000000000 := by
      rw [abs_lt]
      simp only [Time.unixNano, hunix]
      constructor <;> omega
    omega
  · intro y hy hlt
    obtain ⟨_, hm1, _, hd1, hh1, hmi1, hs1, _⟩ := h1
    have hday : daysIn t1.year t1.month ≤ 31 := by
      unfold daysIn; split_ifs <;> omega
    simp only [Time.Format, hy, appendInt_four y hlt,
      appendInt_two t1.month (by omega), appendInt_two t1.day (by omega),
      appendInt_two t1.hour (by omega), appendInt_two t1.minute (by omega),
      appendInt_two t1.second (by omega)]
    rfl
  · intro W batches key hnow hst
    cases hmar : W.marshal { Batches := batches } with
    | error err =>
      rw [storeData_marshal_error W batches err hmar] at hst
      simp at hst
    | ok data =>
      cases hs : W.newSession with
      | some err =>
        rw [storeData_session_error W batches data err hmar hs] at hst
        simp at hst
      | none =>
        cases hp : W.putObject bucketName (objectKeyAt W.now) data with
        | some err =>
          rw [storeData_put_error W batches data err hmar hs hp] at hst
          simp at hst
        | none =>
          rw [storeData_ok W batches data hmar hs hp] at hst
          simp only [Prod.mk.injEq, and_true] at hst
          rw [← hst, hnow]

/-- Two export times two seconds apart in UTC. -/
theorem objectKey_distinct_witness :
    sampleWorld.now.Valid ∧ ({ sampleWorld.now with second := 7 } : Time).Valid ∧
    sampleWorld.now.zoneOffset = ({ sampleWorld.now with second := 7 } : Time).zoneOffset ∧
    1000000000
      < |sampleWorld.now.unixNano - ({ sampleWorld.now with second := 7 } : Time).unixNano| ∧
    objectKeyAt sampleWorld.now ≠ objectKeyAt { sampleWorld.now with second := 7 } :=
  ⟨by decide, by decide, rfl, by decide,
    (objectKey_distinct sampleWorld.now { sampleWorld.now with second := 7 }
      (by decide) (by decide) rfl (by decide)).1⟩


/-! ### Export wire format -/

theorem decodeRune_cons (b0 : Nat) (rest : GoString) :
    decodeRune (b0 :: rest)
      = if b0 < 0x80 then (b0, 1)
        else if 0xC2 ≤ b0 ∧ b0 ≤ 0xDF then
          match rest with
          | b1 :: _ =>
            if 0x80 ≤ b1 ∧ b1 ≤ 0xBF then (b0 % 32 * 64 + b1 % 64, 2) else (0xFFFD, 1)
          | [] => (0xFFFD, 1)
        else if 0xE0 ≤ b0 ∧ b0 ≤ 0xEF then
          match rest with
          | b1 :: b2 :: _ =>
            if secondLo b0 ≤ b1 ∧ b1 ≤ secondHi b0 ∧ 0x80 ≤ b2 ∧ b2 ≤ 0xBF then
              (b0 % 16 * 4096 + b1 % 64 * 64 + b2 % 64, 3)
            else (0xFFFD, 1)
          | _ => (0xFFFD, 1)
        else if 0xF0 ≤ b0 ∧ b0 ≤ 0xF4 then
          match rest with
          | b1 :: b2 :: b3 :: _ =>
            if secondLo b0 ≤ b1 ∧ b1 ≤ secondHi b0 ∧
                0x80 ≤ b2 ∧ b2 ≤ 0xBF ∧ 0x80 ≤ b3 ∧ b3 ≤ 0xBF then
              (b0 % 8 * 262144 + b1 % 64 * 4096 + b2 % 64 * 64 + b3 % 64, 4)
            else (0xFFFD, 1)
          | _ => (0xFFFD, 1)
        else (0xFFFD, 1) := rfl

theorem second_range (b0 b1 : Nat) (h : secondLo b0 ≤ b1 ∧ b1 ≤ secondHi b0) :
    0x80 ≤ b1 ∧ b1 ≤ 0xBF ∧ (b0 = 0xE0 → 0xA0 ≤ b1) ∧ (b0 = 0xED → b1 ≤ 0x9F) ∧
    (b0 = 0xF0 → 0x90 ≤ b1) ∧ (b0 = 0xF4 → b1 ≤ 0x8F) := by
  unfold secondLo secondHi at h
  split_ifs at h <;> omega

theorem encodeRune_two (b0 b1 : Nat) (h0 : 0xC2 ≤ b0 ∧ b0 ≤ 0xDF) (h1 : 0x80 ≤ b1 ∧ b1 ≤ 0xBF) :
    encodeRune (b0 % 32 * 64 + b1 % 64) = [b0, b1] := by
  unfold encodeRune
  rw [if_neg (by omega), if_pos (by omega)]
  congr 1
  · omega
  · congr 1; omega

theorem encodeRune_three (b0 b1 b2 : Nat) (h0 : 0xE0 ≤ b0 ∧ b0 ≤ 0xEF)
    (h1 : secondLo b0 ≤ b1 ∧ b1 ≤ secondHi b0) (h2 : 0x80 ≤ b2 ∧ b2 ≤ 0xBF) :
    encodeRune (b0 % 16 * 4096 + b1 % 64 * 64 + b2 % 64) = [b0, b1, b2] := by
  have h1a := second_range b0 b1 h1
  unfold encodeRune
  rw [if_neg (by omega), if_neg (by omega), if_neg (by omega), if_pos (by omega)]
  congr 1
  · omega
  · congr 1
    · omega
    · congr 1; omega

theorem encodeRune_four (b0 b1 b2 b3 : Nat) (h0 : 0xF0 ≤ b0 ∧ b0 ≤ 0xF4)
    (h1 : secondLo b0 ≤ b1 ∧ b1 ≤ secondHi b0)
    (h2 : 0x80 ≤ b2 ∧ b2 ≤ 0xBF) (h3 : 0x80 ≤ b3 ∧ b3 ≤ 0xBF) :
    encodeRune (b0 % 8 * 262144 + b1 % 64 * 4096 + b2 % 64 * 64 + b3 % 64)
      = [b0, b1, b2, b3] := by
  have h1a := second_range b0 b1 h1
  unfold encodeRune
  rw [if_neg (by omega), if_neg (by omega), if_neg (by omega), if_neg (by omega)]
  congr 1
  · omega
  · congr 1
    · omega
    · congr 1
      · omega
      · congr 1; omega

/-- A rune that decodes without error: its bytes are a front part of the
string, they alone determine the decoding, and encoding the rune gives them
back. -/
theorem decodeRune_valid (b : Nat) (rest : GoString) (hb : 0x80 ≤ b)
    (hv : ¬ ((decodeRune (b :: rest)).1 = 0xFFFD ∧ (decodeRune (b :: rest)).2 = 1)) :
    ∃ pre tail, rest = pre ++ tail ∧
      (decodeRune (b :: rest)).2 = pre.length + 1 ∧
      encodeRune (decodeRune (b :: rest)).1 = b :: pre ∧
      ∀ other, decodeRune (b :: (pre ++ other)) = decodeRune (b :: rest) := by
  have key : ∀ d, decodeRune (b :: rest) = d → ¬ (d.1 = 0xFFFD ∧ d.2 = 1) →
      ∃ pre tail, rest = pre ++ tail ∧ d.2 = pre.length + 1 ∧ encodeRune d.1 = b :: pre ∧
        ∀ other, decodeRune (b :: (pre ++ other)) = d := by
    intro d hd hv
    have bad : d = (0xFFFD, 1) → False := fun h => hv (by rw [h]; exact ⟨rfl, rfl⟩)
    rw [decodeRune_cons, if_neg (by omega)] at hd
    by_cases h2 : 0xC2 ≤ b ∧ b ≤ 0xDF
    · rw [if_pos h2] at hd
      rcases rest with _ | ⟨b1, r⟩
      · exact absurd hd.symm bad
      · simp only [] at hd
        by_cases hc : 0x80 ≤ b1 ∧ b1 ≤ 0xBF
        · rw [if_pos hc] at hd
          subst hd
          refine ⟨[b1], r, rfl, rfl, encodeRune_two b b1 h2 hc, ?_⟩
          intro other
          rw [decodeRune_cons, if_neg (by omega), if_pos h2]
          simp only [List.singleton_append, if_pos hc]
        · rw [if_neg hc] at hd
          exact absurd hd.symm bad
    · rw [if_neg h2] at hd
      by_cases h3 : 0xE0 ≤ b ∧ b ≤ 0xEF
      · rw [if_pos h3] at hd
        rcases rest with _ | ⟨b1, _ | ⟨b2, r⟩⟩
        · exact absurd hd.symm bad
        · exact absurd hd.symm bad
        · simp only [] at hd
          by_cases hc : secondLo b ≤ b1 ∧ b1 ≤ secondHi b ∧ 0x80 ≤ b2 ∧ b2 ≤ 0xBF
          · rw [if_pos hc] at hd
            subst hd
            refine ⟨[b1, b2], r, rfl, rfl,
              encodeRune_three b b1 b2 h3 ⟨hc.1, hc.2.1⟩ hc.2.2, ?_⟩
            intro other
            rw [decodeRune_cons, if_neg (by omega), if_neg h2, if_pos h3]
            simp only [List.cons_append, List.nil_append, if_pos hc]
          · rw [if_neg hc] at hd
            exact absurd hd.symm bad
      · rw [if_neg h3] at hd
        by_cases h4 : 0xF0 ≤ b ∧ b ≤ 0xF4
        · rw [if_pos h4] at hd
          rcases rest with _ | ⟨b1, _ | ⟨b2, _ | ⟨b3, r⟩⟩⟩
          · exact absurd hd.symm bad
          · exact absurd hd.symm bad
          · exact absurd hd.symm bad
          · simp only [] at hd
            by_cases hc : secondLo b ≤ b1 ∧ b1 ≤ secondHi b ∧
                0x80 ≤ b2 ∧ b2 ≤ 0xBF ∧ 0x80 ≤ b3 ∧ b3 ≤ 0xBF
            · rw [if_pos hc] at hd
              subst hd
              refine ⟨[b1, b2, b3], r, rfl, rfl,
                encodeRune_four b b1 b2 b3 h4 ⟨hc.1, hc.2.1⟩ ⟨hc.2.2.1, hc.2.2.2.1⟩
                  hc.2.2.2.2, ?_⟩
              intro other
              rw [decodeRune_cons, if_neg (by omega), if_neg h2, if_neg h3, if_pos h4]
              simp only [List.cons_append, List.nil_append, if_pos hc]
            · rw [if_neg hc] at hd
              exact absurd hd.symm bad
        · rw [if_neg h4] at hd
          exact absurd hd.symm bad
  exact key _ rfl hv

theorem hexValue_hexDigit (n : Nat) (h : n < 16) : hexValue (hexDigit n) = some n := by
  interval_cases n <;> rfl

theorem hex4_low (n : Nat) (h : n < 256) :
    hex4 48 48 (hexDigit (n / 16)) (hexDigit (n % 16)) = some n := by
  have h0 : hexValue 48 = some 0 := rfl
  simp only [hex4, h0, hexValue_hexDigit (n / 16) (by omega),
    hexValue_hexDigit (n % 16) (by omega)]
  congr 1
  omega

theorem unicodeEscape_low (n : Nat) (rest : GoString) (h : n < 0xD800) :
    unicodeEscape n rest = (n, rest) := by
  unfold unicodeEscape
  rw [if_neg (by omega)]

theorem unquoteFrom_unicode (a b c d n : Nat) (tail : GoString)
    (h : hex4 a b c d = some n) (hn : n < 0xD800) :
    unquoteFrom (92 :: 117 :: a :: b :: c :: d :: tail)
      = match unquoteFrom tail with
        | none => none
        | some (s, rest) => some (encodeRune n ++ s, rest) := by
  rw [unquoteFrom.eq_def]
  simp only [h, unicodeEscape_low n tail hn]
  simp

theorem unquoteFrom_short (e x : Nat) (tail : GoString) (he : e ≠ 117)
    (hx : unescape e = some x) :
    unquoteFrom (92 :: e :: tail)
      = match unquoteFrom tail with
        | none => none
        | some (s, rest) => some (x :: s, rest) := by
  rw [unquoteFrom.eq_def]
  simp only [he, hx]
  simp

theorem unquoteFrom_plain (c : Nat) (tail : GoString) (h1 : c ≠ 34) (h2 : c ≠ 92)
    (h3 : ¬ c < 32) (h4 : c < 0x80) :
    unquoteFrom (c :: tail)
      = match unquoteFrom tail with
        | none => none
        | some (s, rest) => some (c :: s, rest) := by
  rw [unquoteFrom.eq_def]
  simp only [h1, h2, h3, h4, if_false, if_true]

theorem unquoteFrom_rune (c : Nat) (cs : GoString) (h : 0x80 ≤ c) :
    unquoteFrom (c :: cs)
      = match unquoteFrom (cs.drop ((decodeRune (c :: cs)).2 - 1)) with
        | none => none
        | some (s, rest) => some (encodeRune (decodeRune (c :: cs)).1 ++ s, rest) := by
  rw [unquoteFrom.eq_def]
  simp only []
  rw [if_neg (by omega), if_neg (by omega), if_neg (by omega), if_neg (by omega)]

/-- Decoding undoes the escape of one ASCII byte. -/
theorem unquoteFrom_escapeByte (b : Nat) (tail : GoString) (hb : b < 0x80) :
    unquoteFrom (escapeByte b ++ tail)
      = match unquoteFrom tail with
        | none => none
        | some (s, rest) => some (b :: s, rest) := by
  unfold escapeByte
  split
  · next h =>
    rcases h with h | h <;> subst h <;>
      exact unquoteFrom_short _ _ tail (by decide) rfl
  · next hq =>
    rw [not_or] at hq
    split
    · next h => subst h; exact unquoteFrom_short 98 8 tail (by decide) rfl
    · split
      · next h => subst h; exact unquoteFrom_short 102 12 tail (by decide) rfl
      · split
        · next h => subst h; exact unquoteFrom_short 110 10 tail (by decide) rfl
        · split
          · next h => subst h; exact unquoteFrom_short 114 13 tail (by decide) rfl
          · split
            · next h => subst h; exact unquoteFrom_short 116 9 tail (by decide) rfl
            · split
              · have := unquoteFrom_unicode 48 48 (hexDigit (b / 16)) (hexDigit (b % 16)) b
                  tail (hex4_low b (by omega)) (by omega)
                have henc : encodeRune b = [b] := by
                  unfold encodeRune; rw [if_pos hb]
                rw [henc] at this
                exact this
              · next hctl =>
                rw [not_or] at hctl
                exact unquoteFrom_plain b tail hq.1 hq.2 hctl.1 hb

/-- Decoding undoes `appendString` on every string that is valid UTF-8. -/
theorem unquoteFrom_appendString (n : Nat) :
    ∀ (s tail : GoString), s.length ≤ n → validUTF8 s = true →
      unquoteFrom (appendString s ++ 34 :: tail) = some (s, tail) := by
  induction n with
  | zero =>
    intro s tail hlen _
    have : s = [] := List.eq_nil_of_length_eq_zero (by omega)
    subst this
    rw [appendString, List.nil_append, unquoteFrom.eq_def]
    simp
  | succ n ih =>
    intro s tail hlen hvalid
    cases s with
    | nil =>
      rw [appendString, List.nil_append, unquoteFrom.eq_def]
      simp
    | cons b rest =>
      rw [validUTF8] at hvalid
      simp only [Bool.and_eq_true, Bool.not_eq_true', Bool.and_eq_false_imp, beq_iff_eq,
        beq_eq_false_iff_ne, ne_eq] at hvalid
      obtain ⟨hnoerr, hrest⟩ := hvalid
      have hv : ¬ ((decodeRune (b :: rest)).1 = 0xFFFD ∧ (decodeRune (b :: rest)).2 = 1) :=
        fun h => hnoerr h.1 h.2
      simp only [List.length_cons] at hlen
      rw [appendString]
      by_cases hb : b < 0x80
      · rw [if_pos hb, List.append_assoc, unquoteFrom_escapeByte b _ hb]
        have hsize : (decodeRune (b :: rest)).2 = 1 := by
          rw [decodeRune_cons, if_pos hb]
        rw [hsize] at hrest
        rw [ih rest tail (by omega) (by simpa using hrest)]
      · rw [if_neg hb, if_neg hv]
        obtain ⟨pre, tl, hsplit, hsize, henc, hpre⟩ := decodeRune_valid b rest (by omega) hv
        have hdrop : rest.drop ((decodeRune (b :: rest)).2 - 1) = tl := by
          rw [hsize, hsplit]
          simp
        have htake : (b :: rest).take (decodeRune (b :: rest)).2 = b :: pre := by
          rw [hsize, hsplit]
          simp
        rw [hdrop] at hrest ⊢
        have hlen1 : tl.length ≤ n := by
          rw [hsplit, List.length_append] at hlen
          omega
        have hih := ih tl tail hlen1 hrest
        by_cases hsep : (decodeRune (b :: rest)).1 = 0x2028 ∨ (decodeRune (b :: rest)).1 = 0x2029
        · rw [if_pos hsep]
          have hhex : hex4 50 48 50 (hexDigit ((decodeRune (b :: rest)).1 % 16))
              = some (decodeRune (b :: rest)).1 := by
            rcases hsep with h | h <;> rw [h] <;> rfl
          have hlow : (decodeRune (b :: rest)).1 < 0xD800 := by
            rcases hsep with h | h <;> rw [h] <;> decide
          have := unquoteFrom_unicode 50 48 50 (hexDigit ((decodeRune (b :: rest)).1 % 16))
            (decodeRune (b :: rest)).1 (appendString tl ++ 34 :: tail) hhex hlow
          simp only [ascii, List.map, List.append_assoc, List.cons_append, List.nil_append]
          rw [show ('\\' : Char).toNat = 92 from rfl, show ('u' : Char).toNat = 117 from rfl,
            show ('2' : Char).toNat = 50 from rfl, show ('0' : Char).toNat = 48 from rfl]
          rw [this, hih, henc, hsplit]
          rfl
        · rw [if_neg hsep, htake, List.append_assoc, List.cons_append,
            unquoteFrom_rune b _ (by omega), hpre]
          have hdrop2 : (pre ++ (appendString tl ++ 34 :: tail)).drop
              ((decodeRune (b :: rest)).2 - 1) = appendString tl ++ 34 :: tail := by
            rw [hsize]
            simp
          rw [hdrop2, hih, henc, hsplit]
          rfl

theorem decodeString_encodeString (s tail : GoString) (h : validUTF8 s = true) :
    decodeString (encodeString s ++ tail) = some (s, tail) := by
  simp only [encodeString, List.cons_append, decodeString, if_true, List.append_assoc,
    List.singleton_append]
  exact unquoteFrom_appendString s.length s tail (Nat.le_refl _) h

theorem encodeElements_cons {α : Type} (enc : α → GoString) (a : α) (xs : List α)
    (tail : GoString) :
    encodeElements enc (a :: xs) ++ 93 :: tail
      = enc a ++ (match xs with
        | [] => 93 :: tail
        | b :: rest => 44 :: (encodeElements enc (b :: rest) ++ 93 :: tail)) := by
  cases xs with
  | nil => rfl
  | cons b rest => simp [encodeElements]

theorem decodeElements_encodeElements {α : Type} (enc : α → GoString)
    (decode : GoString → Option (α × GoString)) :
    ∀ (xs : List α) (fuel : Nat) (tail : GoString), xs ≠ [] → xs.length ≤ fuel →
      (∀ a ∈ xs, ∀ t, decode (enc a ++ t) = some (a, t)) →
      decodeElements decode fuel (encodeElements enc xs ++ 93 :: tail) = some (xs, tail) := by
  intro xs
  induction xs with
  | nil => intro fuel tail h; exact absurd rfl h
  | cons a xs ih =>
    intro fuel tail _ hfuel hdec
    cases fuel with
    | zero => simp at hfuel
    | succ fuel =>
      rw [encodeElements_cons, decodeElements, hdec a (List.mem_cons_self a xs)]
      cases xs with
      | nil => rfl
      | cons b rest =>
        simp only []
        rw [ih fuel tail (by simp) (by simpa using hfuel)
          (fun x hx t => hdec x (List.mem_cons_of_mem a hx) t)]

theorem encodeElements_length {α : Type} (enc : α → GoString)
    (hpos : ∀ a, 0 < (enc a).length) :
    ∀ xs : List α, xs.length ≤ (encodeElements enc xs).length := by
  intro xs
  induction xs with
  | nil => simp [encodeElements]
  | cons a xs ih =>
    cases xs with
    | nil => simpa [encodeElements] using hpos a
    | cons b rest =>
      simp only [encodeElements, List.length_append, List.length_cons] at ih ⊢
      have := hpos a
      omega

/-- Decoding a slice undoes its encoding, when decoding undoes the encoding of
each of its elements and no element starts with a closing bracket. -/
theorem decodeSlice_encodeSlice {α : Type} (enc : α → GoString)
    (decode : GoString → Option (α × GoString))
    (hhead : ∀ a, ∃ c t, enc a = c :: t ∧ c ≠ 93) (xs : Slice α) (tail : GoString)
    (hdec : ∀ a ∈ xs.elems, ∀ t, decode (enc a ++ t) = some (a, t)) :
    decodeSlice decode (encodeSlice enc xs ++ tail) = some (xs, tail) := by
  cases xs with
  | null => rfl
  | of xs =>
    cases xs with
    | nil => rfl
    | cons a xs =>
      have hpos : ∀ a, 0 < (enc a).length := by
        intro a
        obtain ⟨c, t, h, _⟩ := hhead a
        rw [h]; simp
      have hlen := encodeElements_length enc hpos (a :: xs)
      have hrun := decodeElements_encodeElements enc decode (a :: xs)
        (encodeElements enc (a :: xs) ++ 93 :: tail).length tail (by simp)
        (by rw [List.length_append]; omega) hdec
      simp only [encodeSlice, List.cons_append, List.append_assoc, List.singleton_append,
        List.nil_append]
      obtain ⟨c, t, hc, hne⟩ := hhead a
      have hfirst : ∃ t1, encodeElements enc (a :: xs) ++ 93 :: tail = c :: t1 := by
        rw [encodeElements_cons, hc]
        exact ⟨_, rfl⟩
      obtain ⟨t1, ht1⟩ := hfirst
      rw [ht1] at hrun ⊢
      unfold decodeSlice
      split
      · next heq => simp at heq
      · next heq =>
        simp only [List.cons.injEq, true_and] at heq
        exact absurd heq.1 hne
      · next heq =>
        simp only [List.cons.injEq, true_and] at heq
        rw [← heq, hrun]
      · next h1 h2 h3 => exact absurd rfl (h3 _)

theorem stripLiteral_append (lit tail : GoString) :
    stripLiteral lit (lit ++ tail) = some tail := by
  induction lit with
  | nil => cases tail <;> rfl
  | cons l ls ih => simp [stripLiteral, ih]

theorem encodeString_head (s : GoString) : ∃ c t, encodeString s = c :: t ∧ c ≠ 93 :=
  ⟨34, _, rfl, by decide⟩

theorem encodeSlice_head {α : Type} (enc : α → GoString) (xs : Slice α) :
    ∃ c t, encodeSlice enc xs = c :: t ∧ c ≠ 93 := by
  cases xs with
  | null => exact ⟨110, _, rfl, by decide⟩
  | of xs => exact ⟨91, _, rfl, by decide⟩

/-- Decoding undoes `json.Marshal` on every `Data` value whose URLs are valid
UTF-8. -/
theorem jsonUnmarshal_encoding (bs : Slice (Slice GoString)) (h : allValidUTF8 bs) :
    jsonUnmarshal (ascii "\x7b\"batches\":" ++ encodeSlice (encodeSlice encodeString) bs
      ++ ascii "\x7d") = some { Batches := bs } := by
  unfold jsonUnmarshal
  simp only [List.append_assoc, stripLiteral_append]
  rw [decodeSlice_encodeSlice (encodeSlice encodeString) (decodeSlice decodeString)
    (encodeSlice_head encodeString) bs _
    (fun batch hb t =>
      decodeSlice_encodeSlice encodeString decodeString encodeString_head batch t
        (fun url hu t1 => decodeString_encodeString url t1 (h batch hb url hu)))]
  rfl

theorem Bytes.storeData_written (W : Bytes.World) (bs : Slice (Slice GoString))
    (hsession : W.newSession = none) :
    ∃ rest, (Bytes.storeData W bs).2
      = Bytes.Event.putObject "mamarkt-bucket" (objectKeyAt W.now)
          (ascii "\x7b\"batches\":" ++ encodeSlice (encodeSlice encodeString) bs
            ++ ascii "\x7d") :: rest := by
  simp only [Bytes.storeData, jsonMarshal, Bytes.uploadToS3, hsession]
  cases W.putObject bucketName (objectKeyAt W.now)
      (ascii "\x7b\"batches\":" ++ encodeSlice (encodeSlice encodeString) bs ++ ascii "\x7d") with
  | some err => exact ⟨_, rfl⟩
  | none => exact ⟨_, rfl⟩

/-- C10, as stated, fails: for the batch sequence holding the one URL `a\xffb`
the body `storeData` writes is the JSON encoding, with the escape of `0xFFFD` for
the byte `0xFF`, and decoding it gives the URL `a`, `EF BF BD`, `b`, not the URL
written. -/
theorem storeData_body_lossy :
    jsonMarshal { Batches := invalidBatches }
      = .ok (ascii "\x7b\"batches\":[[\"a\\ufffdb\"]]\x7d") ∧
    (∃ rest, (Bytes.storeData Bytes.sampleWorld invalidBatches).2
      = Bytes.Event.putObject "mamarkt-bucket" (objectKeyAt Bytes.sampleWorld.now)
          (ascii "\x7b\"batches\":[[\"a\\ufffdb\"]]\x7d") :: rest) ∧
    jsonUnmarshal (ascii "\x7b\"batches\":[[\"a\\ufffdb\"]]\x7d")
      = some { Batches := Slice.of [Slice.of [[97, 0xEF, 0xBF, 0xBD, 98]]] } ∧
    ¬ (∀ (W : Bytes.World) (bs : Slice (Slice GoString)), W.newSession = none →
        ∃ body rest,
          (Bytes.storeData W bs).2
            = Bytes.Event.putObject "mamarkt-bucket" (objectKeyAt W.now) body :: rest ∧
          jsonMarshal { Batches := bs } = .ok body ∧
          jsonUnmarshal body = some { Batches := bs }) := by
  have hm : jsonMarshal { Batches := invalidBatches }
      = .ok (ascii "\x7b\"batches\":[[\"a\\ufffdb\"]]\x7d") := by
    simp [jsonMarshal, invalidBatches, encodeSlice, encodeElements, encodeString, appendString,
      escapeByte, decodeRune, ascii]
  have hu : jsonUnmarshal (ascii "\x7b\"batches\":[[\"a\\ufffdb\"]]\x7d")
      = some { Batches := Slice.of [Slice.of [[97, 0xEF, 0xBF, 0xBD, 98]]] } := by
    simp [jsonUnmarshal, ascii, stripLiteral, decodeSlice, decodeElements, decodeString,
      unquoteFrom, hex4, hexValue, unicodeEscape, encodeRune]
  refine ⟨hm, ?_, hu, ?_⟩
  · have h := Bytes.storeData_written Bytes.sampleWorld invalidBatches rfl
    simp only [jsonMarshal, Except.ok.injEq] at hm
    rw [hm] at h
    exact h
  · intro h
    obtain ⟨body, rest, _, hbody, hdec⟩ := h Bytes.sampleWorld invalidBatches rfl
    rw [hm] at hbody
    simp only [Except.ok.injEq] at hbody
    rw [← hbody, hu] at hdec
    simp [invalidBatches] at hdec

/-- C10, amended: for every batch sequence the body `storeData` hands to
`PutObject` is the JSON encoding of the object whose one member `batches`
holds the sequence, `null` for the `nil` sequence and `[]` for an empty one;
and when every URL is valid UTF-8, decoding that body into `Data` gives back
exactly the batch sequence. -/
theorem storeData_body_roundtrip (W : Bytes.World) (bs : Slice (Slice GoString))
    (hsession : W.newSession = none) :
    (∃ body rest,
      (Bytes.storeData W bs).2
        = Bytes.Event.putObject "mamarkt-bucket" (objectKeyAt W.now) body :: rest ∧
      jsonMarshal { Batches := bs } = .ok body ∧
      body = ascii "\x7b\"batches\":" ++ encodeSlice (encodeSlice encodeString) bs
        ++ ascii "\x7d" ∧
      (allValidUTF8 bs → jsonUnmarshal body = some { Batches := bs })) ∧
    jsonMarshal { Batches := Slice.null } = .ok (ascii "\x7b\"batches\":null\x7d") ∧
    jsonUnmarshal (ascii "\x7b\"batches\":null\x7d") = some { Batches := Slice.null } ∧
    jsonMarshal { Batches := Slice.of [] } = .ok (ascii "\x7b\"batches\":[]\x7d") ∧
    jsonUnmarshal (ascii "\x7b\"batches\":[]\x7d") = some { Batches := Slice.of [] } := by
  refine ⟨?_, rfl, ?_, rfl, ?_⟩
  · obtain ⟨rest, hrest⟩ := Bytes.storeData_written W bs hsession
    exact ⟨_, rest, hrest, rfl, rfl, jsonUnmarshal_encoding bs⟩
  · exact jsonUnmarshal_encoding Slice.null (by intro b hb; simp [Slice.elems] at hb)
  · exact jsonUnmarshal_encoding (Slice.of []) (by intro b hb; simp [Slice.elems] at hb)

theorem validBatches_valid : allValidUTF8 validBatches := by
  intro batch hb url hu
  simp only [validBatches, Slice.elems, List.mem_cons, List.mem_singleton,
    List.not_mem_nil, or_false] at hb
  rcases hb with hb | hb | hb <;> subst hb <;>
    simp only [Slice.elems, List.mem_cons, List.mem_singleton, List.not_mem_nil,
      or_false] at hu
  · rcases hu with hu | hu <;> subst hu <;> simp [validUTF8, decodeRune, ascii]
  · subst hu; simp [validUTF8, decodeRune, ascii]

/-- URLs with escaped characters and a two-byte rune, and an empty batch. -/
theorem storeData_body_roundtrip_witness :
    Bytes.sampleWorld.newSession = none ∧ allValidUTF8 validBatches ∧
    jsonMarshal { Batches := validBatches }
      = .ok (ascii "\x7b\"batches\":[[\"p/1?a=1\\u0026b=2\",\"p/" ++ [0xC3, 0xA9]
          ++ ascii "\"],[],[\"\\u003c3\\u003e\"]]\x7d") ∧
    jsonUnmarshal (ascii "\x7b\"batches\":[[\"p/1?a=1\\u0026b=2\",\"p/" ++ [0xC3, 0xA9]
          ++ ascii "\"],[],[\"\\u003c3\\u003e\"]]\x7d")
      = some { Batches := validBatches } := by
  have hm : jsonMarshal { Batches := validBatches }
      = .ok (ascii "\x7b\"batches\":[[\"p/1?a=1\\u0026b=2\",\"p/" ++ [0xC3, 0xA9]
          ++ ascii "\"],[],[\"\\u003c3\\u003e\"]]\x7d") := by
    simp [jsonMarshal, validBatches, encodeSlice, encodeElements, encodeString, appendString,
      escapeByte, decodeRune, ascii, hexDigit]
  obtain ⟨⟨body, rest, _, hbody, _, hdec⟩, _⟩ :=
    storeData_body_roundtrip Bytes.sampleWorld validBatches rfl
  refine ⟨rfl, validBatches_valid, hm, ?_⟩
  rw [hm] at hbody
  simp only [Except.ok.injEq] at hbody
  rw [hbody]
  exact hdec validBatches_valid

end Mamarkt
